import Mathlib

/-!
# json_exporter: a shallow embedding of the collector and webhook packages

The Go sources `collector/utils.go`, `collector/collector.go`, `webhook/config.go`
and `webhook/webhook.go` are translated function by function.  What the program
consumes from outside the repository is kept apart:

* compiled jq expressions (`*gojq.Code`) are functions from a document to the
  finite sequence of results (values or evaluation errors) their iterator yields;
* the metric vectors of the registry are observed through the sequence of
  `Add`/`Set` calls the program makes on them;
* the few standard-library routines the program calls (`strconv.ParseFloat`,
  `strconv.ParseBool`, `strconv.Quote`, `fmt.Errorf`, `http.Header.Get`) are
  transcribed on character lists; the parts of them that are numerical
  algorithms or Unicode tables are fields of `GoLib`.

Go strings are modelled by `String` (valid Unicode text), Go `int`/`int64` by `Int`.
-/

namespace JsonExporter

/-! ## Values -/

/-- A `float64` as the program observes it: a finite number, one of the two
infinities, or NaN.  The sign of zero is not tracked. -/
inductive F64 where
  | finite (q : ℚ)
  | posInf
  | negInf
  | nan
  deriving DecidableEq

/-- Whether a float is one of the two infinities. -/
def F64.isInf : F64 → Bool
  | .posInf => true
  | .negInf => true
  | _ => false

/-- Go `v < 0` on a `float64`: false for NaN. -/
def F64.isNegative : F64 → Bool
  | .finite q => decide (q < 0)
  | .negInf => true
  | _ => false

/-- A dynamically typed Go value (`any`) as far as the program distinguishes
them: the cases of the type switch in `sanitizeValue`, and `other` for a value of
any further dynamic type, given by its `%T` and `%v` renderings. -/
inductive Value where
  | null
  | bool (b : Bool)
  | int (n : Int)
  | int64 (n : Int)
  | float (f : F64)
  | string (s : String)
  | other (typeName : String) (repr : String)
  deriving DecidableEq

/-- What the program takes from the Go runtime and standard library without
this development fixing it. -/
structure GoLib where
  /-- The numeric conversion inside `strconv.ParseFloat`: the float64 nearest to a
  well-formed literal, `none` when the literal is out of range. -/
  atof : String → Option ℚ
  /-- Table lookup `strconv.IsPrint` for code points above 0xFF. -/
  isPrint : Char → Bool
  /-- Rendering `%v` of a float64. -/
  fmtFloat : F64 → String
  /-- Decoding by `encoding/json` of a request body into an `any`. -/
  jsonDecode : String → Except String Value
  /-- Process environment, `os.Getenv`: the empty string for an unset variable. -/
  getenv : String → String
  /-- Addition of two float64, as the metric vectors perform it. -/
  fadd : F64 → F64 → F64

/-! ## float64 conversion of integers -/

/-- Number of bits of a natural number, for at most `fuel` bits. -/
def bitLen : Nat → Nat → Nat
  | 0, _ => 0
  | fuel + 1, n => if n = 0 then 0 else bitLen fuel (n / 2) + 1

/-- Round a natural number below `2 ^ 64` to 53 significant bits, ties to
even. -/
def roundToF64 (n : Nat) : Nat :=
  let k := bitLen 64 n - 53
  if k = 0 then n
  else
    let q := n / 2 ^ k
    let r := n % 2 ^ k
    let half := 2 ^ (k - 1)
    let q1 := if half < r ∨ (r = half ∧ q % 2 = 1) then q + 1 else q
    q1 * 2 ^ k

/-- Go conversion `float64(v)` of an integer. -/
def float64OfInt (v : Int) : F64 :=
  if v < 0 then .finite (-((roundToF64 v.natAbs : Nat) : ℚ))
  else .finite ((roundToF64 v.natAbs : Nat) : ℚ)

/-- ASCII lower case of a character: `if 'A' <= c && c <= 'Z' { c += 'a' - 'A' }`. -/
def asciiLower (c : Char) : Char :=
  if 65 ≤ c.toNat ∧ c.toNat ≤ 90 then Char.ofNat (c.toNat + 32) else c

/-! ## strconv -/

namespace strconv

/-- Go `lower(c)`: `c | ('x' - 'X')`, on the code of the character. -/
def lower (c : Char) : Nat := c.toNat ||| 0x20

/-- A decimal digit. -/
def isDigit (c : Char) : Bool := decide (48 ≤ c.toNat ∧ c.toNat ≤ 57)

/-- A hexadecimal letter: `'a' <= lower(c) && lower(c) <= 'f'`. -/
def isHexLetter (c : Char) : Bool := decide (97 ≤ lower c ∧ lower c ≤ 102)

/-- Go `commonPrefixLenIgnoreCase(s, prefix)`; `prefix` is lower case. -/
def commonPrefixLenIgnoreCase : List Char → List Char → Nat
  | c :: s, p :: rest =>
    if asciiLower c = p then commonPrefixLenIgnoreCase s rest + 1 else 0
  | _, _ => 0

/-- The infinity branch of `special`, on the text after an optional sign. -/
def specialInf (neg : Bool) (nsign : Nat) (s : List Char) : Option (F64 × Nat) :=
  let n := commonPrefixLenIgnoreCase s "infinity".data
  let n := if 3 < n ∧ n < 8 then 3 else n
  if n = 3 ∨ n = 8 then some (if neg then F64.negInf else F64.posInf, nsign + n) else none

/-- Go `special(s)`: the value and the number of bytes read when `s` starts
with a (possibly signed) infinity or with NaN. -/
def special : List Char → Option (F64 × Nat)
  | [] => none
  | c :: s =>
    if c = '+' then specialInf false 1 s
    else if c = '-' then specialInf true 1 s
    else if c = 'i' ∨ c = 'I' then specialInf false 0 (c :: s)
    else if c = 'n' ∨ c = 'N' then
      if commonPrefixLenIgnoreCase (c :: s) "nan".data = 3 then some (F64.nan, 3) else none
    else none

/-- The mantissa loop of `readFloat`: `(sawdigits, underscores, rest)`. -/
def readMantissa (hex : Bool) : List Char → Bool → Bool → Bool → Bool × Bool × List Char
  | [], _, sawdigits, us => (sawdigits, us, [])
  | c :: cs, sawdot, sawdigits, us =>
    if c = '_' then readMantissa hex cs sawdot sawdigits true
    else if c = '.' then
      if sawdot then (sawdigits, us, c :: cs) else readMantissa hex cs true sawdigits us
    else if isDigit c then readMantissa hex cs sawdot true us
    else if hex && isHexLetter c then readMantissa hex cs sawdot true us
    else (sawdigits, us, c :: cs)

/-- The exponent digit loop of `readFloat`: `(underscores, rest)`. -/
def readExpDigits : List Char → Bool → Bool × List Char
  | [], us => (us, [])
  | c :: cs, us =>
    if c = '_' then readExpDigits cs true
    else if isDigit c then readExpDigits cs us
    else (us, c :: cs)

/-- The number loop of `underscoreOK`; `prev` is the previous character class
(`'^'`, `'0'`, `'_'` or `'!'`). -/
def underscoreLoop (hex : Bool) : List Char → Char → Bool
  | [], prev => prev != '_'
  | c :: cs, prev =>
    if isDigit c || (hex && isHexLetter c) then underscoreLoop hex cs '0'
    else if c = '_' then
      if prev != '0' then false else underscoreLoop hex cs '_'
    else if prev = '_' then false
    else underscoreLoop hex cs '!'

/-- Go `underscoreOK(s)`. -/
def underscoreOK (s : List Char) : Bool :=
  let s := match s with
    | c :: cs => if c = '-' ∨ c = '+' then cs else c :: cs
    | [] => []
  match s with
  | c0 :: c1 :: cs =>
    if c0 = '0' ∧ (lower c1 = 98 ∨ lower c1 = 111 ∨ lower c1 = 120) then
      underscoreLoop (lower c1 = 120) cs '0'
    else underscoreLoop false s '^'
  | _ => underscoreLoop false s '^'

/-- The syntax check of Go `readFloat(s)`: the text left unread when `ok`,
`none` when not `ok`.  The mantissa and exponent it accumulates are the
business of `GoLib.atof`. -/
def readFloat (s : List Char) : Option (List Char) :=
  match s with
  | [] => none
  | c :: cs =>
    let t := if c = '+' ∨ c = '-' then cs else c :: cs
    let hex : Bool := match t with
      | c0 :: c1 :: _ :: _ => c0 = '0' ∧ lower c1 = 120
      | _ => false
    let t := if hex then t.drop 2 else t
    match readMantissa hex t false false false with
    | (false, _, _) => none
    | (true, us, rest) =>
      let expChar : Nat := if hex then 112 else 101
      let afterExp : Option (Bool × List Char) :=
        match rest with
        | e :: r =>
          if lower e = expChar then
            match r with
            | [] => none
            | g :: r1 =>
              let r2 := if g = '+' ∨ g = '-' then r1 else g :: r1
              match r2 with
              | [] => none
              | d :: _ => if isDigit d then some (readExpDigits r2 us) else none
          else if hex then none else some (us, rest)
        | [] => if hex then none else some (us, rest)
      match afterExp with
      | none => none
      | some (us1, rest1) =>
        if us1 && !underscoreOK (s.take (s.length - rest1.length)) then none
        else some rest1

/-- The two sentinel errors of strconv. -/
inductive Err where
  | syntax_
  | range
  deriving DecidableEq

/-- Go `*strconv.NumError`. -/
structure NumError where
  Func : String
  Num : String
  Err : Err
  deriving DecidableEq

/-- Two lower-case hexadecimal digits of a byte. -/
def hexDigit (n : Nat) : Char :=
  if n % 16 < 10 then Char.ofNat (48 + n % 16) else Char.ofNat (87 + n % 16)

/-- Go `strconv.IsPrint`, by range up to 0xFF and by table above. -/
def IsPrint (L : GoLib) (r : Char) : Bool :=
  if r.toNat ≤ 0xFF then
    if 0x20 ≤ r.toNat ∧ r.toNat ≤ 0x7E then true
    else if 0xA1 ≤ r.toNat ∧ r.toNat ≤ 0xFF then r.toNat != 0xAD
    else false
  else L.isPrint r

/-- Go `appendEscapedRune` for `strconv.Quote` (quote `"`, neither ASCII-only nor
graphic-only). -/
def escapedRune (L : GoLib) (r : Char) : List Char :=
  if r = '"' ∨ r = '\\' then ['\\', r]
  else if IsPrint L r then [r]
  else if r.toNat = 7 then ['\\', 'a']
  else if r.toNat = 8 then ['\\', 'b']
  else if r.toNat = 12 then ['\\', 'f']
  else if r.toNat = 10 then ['\\', 'n']
  else if r.toNat = 13 then ['\\', 'r']
  else if r.toNat = 9 then ['\\', 't']
  else if r.toNat = 11 then ['\\', 'v']
  else if r.toNat < 0x20 ∨ r.toNat = 0x7F then
    ['\\', 'x', hexDigit (r.toNat / 16), hexDigit r.toNat]
  else if r.toNat < 0x10000 then
    ['\\', 'u', hexDigit (r.toNat / 4096), hexDigit (r.toNat / 256),
      hexDigit (r.toNat / 16), hexDigit r.toNat]
  else
    ['\\', 'U', hexDigit (r.toNat / 268435456), hexDigit (r.toNat / 16777216),
      hexDigit (r.toNat / 1048576), hexDigit (r.toNat / 65536),
      hexDigit (r.toNat / 4096), hexDigit (r.toNat / 256),
      hexDigit (r.toNat / 16), hexDigit r.toNat]

/-- Go `strconv.Quote(s)`. -/
def Quote (L : GoLib) (s : String) : String :=
  String.mk ('"' :: (s.data.flatMap (escapedRune L) ++ ['"']))

/-- Go `(*NumError).Error()`. -/
def NumError.Error (L : GoLib) (e : NumError) : String :=
  "strconv." ++ e.Func ++ ": parsing " ++ Quote L e.Num ++ ": " ++
    (match e.Err with
     | .syntax_ => "invalid syntax"
     | .range => "value out of range")

/-- Go `strconv.ParseFloat(s, 64)`. -/
def ParseFloat (L : GoLib) (s : String) : Except NumError F64 :=
  match special s.data with
  | some (f, n) =>
    if n ≠ s.data.length then .error ⟨"ParseFloat", s, .syntax_⟩ else .ok f
  | none =>
    match readFloat s.data with
    | none => .error ⟨"ParseFloat", s, .syntax_⟩
    | some rest =>
      if rest ≠ [] then .error ⟨"ParseFloat", s, .syntax_⟩
      else match L.atof s with
        | some q => .ok (.finite q)
        | none => .error ⟨"ParseFloat", s, .range⟩

/-- Go `strconv.ParseBool(str)`. -/
def ParseBool (str : String) : Except NumError Bool :=
  if str = "1" ∨ str = "t" ∨ str = "T" ∨ str = "true" ∨ str = "TRUE" ∨ str = "True" then
    .ok true
  else if str = "0" ∨ str = "f" ∨ str = "F" ∨ str = "false" ∨ str = "FALSE"
      ∨ str = "False" then
    .ok false
  else .error ⟨"ParseBool", str, .syntax_⟩

end strconv

/-! ## fmt with no operands -/

namespace fmt

/-- Go `parsenum(s, start, end)` on the text from `start` to `end`: whether a
number was read, and the text left; a number over a million abandons the whole
text. -/
def parsenum : List Char → Nat → Bool → Bool × List Char
  | [], _, isnum => (isnum, [])
  | c :: cs, num, isnum =>
    if strconv.isDigit c then
      if 1000000 < num then (false, [])
      else parsenum cs (num * 10 + (c.toNat - 48)) true
    else (isnum, c :: cs)

/-- Go `(*pp).argNumber` when the call has no operands: the text left, whether
an index `[n]` was read, and whether `goodArgNum` was cleared (every explicit
index is out of range). -/
def argNumber (t : List Char) : List Char × Bool × Bool :=
  match t with
  | '[' :: body =>
    if t.length < 3 then (body, false, true)
    else
      match body.indexOf? ']' with
      | none => (body, false, true)
      | some j =>
        let ok := match parsenum (body.take j) 0 false with
          | (isnum, rest) => isnum && rest.isEmpty
        (body.drop (j + 1), ok, true)
  | _ => (t, false, false)

/-- One verb of `doPrintf` with no operands, on the text after its `%`: what is
written, and the text left. -/
def verb (t : List Char) : List Char × List Char :=
  let t := t.dropWhile (fun c => c = '#' ∨ c = '0' ∨ c = '+' ∨ c = '-' ∨ c = ' ')
  let (t, afterIndex, bad) := argNumber t
  let good := !bad
  -- width
  let (out, t, afterIndex, good) :=
    match t with
    | '*' :: r => ("%!(BADWIDTH)".data, r, false, good)
    | _ =>
      let (widPresent, r) := parsenum t 0 false
      ([], r, afterIndex, good && !(afterIndex && widPresent))
  -- precision
  let (out, t, afterIndex, good) :=
    match t with
    | '.' :: r =>
      let good := good && !afterIndex
      let (r, afterIndex, bad) := argNumber r
      let good := good && !bad
      match r with
      | '*' :: r1 => (out ++ "%!(BADPREC)".data, r1, false, good)
      | _ => (out, (parsenum r 0 false).2, afterIndex, good)
    | _ => (out, t, afterIndex, good)
  let (t, good) :=
    if afterIndex then (t, good)
    else
      let (r, _, bad) := argNumber t
      (r, good && !bad)
  match t with
  | [] => (out ++ "%!(NOVERB)".data, [])
  | v :: r =>
    if v = '%' then (out ++ ['%'], r)
    else if !good then (out ++ ['%', '!', v] ++ "(BADINDEX)".data, r)
    else (out ++ ['%', '!', v] ++ "(MISSING)".data, r)

/-- The format loop of `doPrintf` with no operands. -/
def doPrintf : Nat → List Char → List Char
  | 0, _ => []
  | fuel + 1, t =>
    match t.span (fun c => c != '%') with
    | (text, []) => text
    | (text, _ :: r) =>
      let (out, rest) := verb r
      text ++ out ++ doPrintf fuel rest

/-- The message of Go `fmt.Errorf(format)`, called with a format and no
operand. -/
def Errorf (format : String) : String :=
  String.mk (doPrintf (format.data.length + 1) format.data)

/-- Go `fmt.Sprintf("%s", err)` for a value `err` of type `error`, given by its
message, `none` for the nil error: the verb `%s` has no text for a nil
operand. -/
def SprintfError (err : Option String) : String :=
  match err with
  | none => "%!s(<nil>)"
  | some msg => msg

end fmt

/-- Decidable equality of results, for evaluation. -/
instance instDecidableEqExcept {ε α : Type} [DecidableEq ε] [DecidableEq α] :
    DecidableEq (Except ε α)
  | .ok a, .ok b => if h : a = b then isTrue (by rw [h]) else isFalse (by intro e; cases e; exact h rfl)
  | .error a, .error b =>
    if h : a = b then isTrue (by rw [h]) else isFalse (by intro e; cases e; exact h rfl)
  | .ok _, .error _ => isFalse (by intro e; cases e)
  | .error _, .ok _ => isFalse (by intro e; cases e)

/-! ## collector/utils.go -/

namespace collector

/-- Go `sanitizeValue(v any) (float64, error)`; the error is given by its
message.  The variable `err` of the function is declared nil and never assigned:
the `err` of each `if v, err := ...; err == nil` is a new variable whose scope
is that statement, so the two `fmt.Sprintf("%s", err)` that follow format the
nil one. -/
def sanitizeValue (L : GoLib) (v : Value) : Except String F64 :=
  let err : Option String := none
  match v with
  | .int n => .ok (float64OfInt n)
  | .int64 n => .ok (float64OfInt n)
  | .float f => .ok f
  | .bool b => if b then .ok (.finite 1) else .ok (.finite 0)
  | .string s =>
    match strconv.ParseFloat L s with
    | .ok f => .ok f
    | .error _ =>
      let resultErr := fmt.SprintfError err
      match strconv.ParseBool s with
      | .ok b => if b then .ok (.finite 1) else .ok (.finite 0)
      | .error _ =>
        let resultErr := resultErr ++ "; " ++ fmt.SprintfError err
        if s = "<nil>" then .ok .nan
        else .error (fmt.Errorf resultErr)
  | .null => .ok .nan
  | .other typeName repr =>
    .error ("unknown value " ++ repr ++ " type \x27" ++ typeName ++ "\x27")

end collector

/-! ## gojq and fmt values -/

/-- A compiled jq expression (`*gojq.Code`): the results its iterator yields on
a document, each a value or an evaluation error given by its message. -/
abbrev Code := Value → List (Except String Value)

/-- Go `fmt.Sprint(v)` of one value. -/
def Sprint (L : GoLib) : Value → String
  | .null => "<nil>"
  | .bool b => if b then "true" else "false"
  | .int n => toString n
  | .int64 n => toString n
  | .float f => L.fmtFloat f
  | .string s => s
  | .other _ repr => repr

/-! ## collector/collector.go -/

namespace collector

/-- Go `jsonLabel`. -/
structure jsonLabel where
  name : String
  value : Code

/-- Go `jsonMetric`; its two metric vectors are identified by `name`. -/
structure jsonMetric where
  name : String
  path : Code
  filter : Code
  value : Code
  labels : List jsonLabel
  metricType : String
  operation : String

/-- Go `JSONCollector`. -/
structure JSONCollector where
  id : String
  metrics : List jsonMetric

/-- Go constant `CounterMetric`. -/
def CounterMetric : String := "counter"

/-- Go constant `GaugeMetric`. -/
def GaugeMetric : String := "gauge"

/-- Go constant `OperationAdd`. -/
def OperationAdd : String := "add"

/-- Go constant `OperationSet`. -/
def OperationSet : String := "set"

/-- Go `prometheus.Labels`, a map from label name to label value, kept in
insertion order. -/
abbrev Labels := List (String × String)

/-- Map assignment `pLabels[k] = v`. -/
def Labels.set : Labels → String → String → Labels
  | [], k, v => [(k, v)]
  | (k1, v1) :: rest, k, v =>
    if k1 = k then (k, v) :: rest else (k1, v1) :: Labels.set rest k v

/-- The call made on a metric vector. -/
inductive VecOp where
  | counterAdd
  | gaugeAdd
  | gaugeSet
  deriving DecidableEq

/-- One registry mutation: `vec.With(labels).Add(v)` or `.Set(v)` on the vector
of the metric `metric`. -/
structure Update where
  metric : String
  op : VecOp
  labels : Labels
  v : F64
  deriving DecidableEq

/-- Whether a registry mutation panics instead of returning: `Add(v)` on a
counter of client_golang panics when `v < 0`; `Add` and `Set` on a gauge
return. -/
def Update.panics (u : Update) : Bool :=
  match u.op with
  | .counterAdd => u.v.isNegative
  | _ => false

/-- Go `extractFirstValue(ctx, code, input)`. -/
def extractFirstValue (code : Code) (input : Value) : Except String Value :=
  match code input with
  | [] => .ok .null
  | .error err :: _ => .error ("unable to get value err:" ++ err)
  | .ok v :: _ => .ok v

/-- The loop of `extractLabels` over the remaining labels. -/
def extractLabelsFrom (L : GoLib) (input : Value) :
    List jsonLabel → Labels → Except String Labels
  | [], pLabels => .ok pLabels
  | label :: rest, pLabels =>
    match extractFirstValue label.value input with
    | .error err =>
      .error ("unable to get label value label:" ++ label.name ++ " err:" ++ err)
    | .ok v => extractLabelsFrom L input rest (pLabels.set label.name (Sprint L v))

/-- Go `(*jsonMetric).extractLabels(ctx, input)`. -/
def extractLabels (L : GoLib) (jm : jsonMetric) (input : Value) : Except String Labels :=
  extractLabelsFrom L input jm.labels []

/-- Go `(*jsonMetric).updateValue(labels, v)`: the registry mutations made. -/
def updateValue (jm : jsonMetric) (labels : Labels) (v : F64) : List Update :=
  if jm.metricType = CounterMetric then [⟨jm.name, .counterAdd, labels, v⟩]
  else if jm.metricType = GaugeMetric then
    if jm.operation = OperationAdd then [⟨jm.name, .gaugeAdd, labels, v⟩]
    else [⟨jm.name, .gaugeSet, labels, v⟩]
  else []

/-- Go `(*jsonMetric).collect(ctx, input)`: the returned error (`none` for nil),
by its message, and the registry mutations made. -/
def collect (L : GoLib) (jm : jsonMetric) (input : Value) : Option String × List Update :=
  match extractFirstValue jm.filter input with
  | .error err => (some ("unable to get filter value err:" ++ err), [])
  | .ok filter =>
    if filter = .bool false then (none, [])
    else
      match extractLabels L jm input with
      | .error err => (some err, [])
      | .ok labels =>
        match extractFirstValue jm.value input with
        | .error err => (some ("unable to get value err:" ++ err), [])
        | .ok value =>
          match sanitizeValue L value with
          | .error err => (some ("unable to sanitize value err:" ++ err), [])
          | .ok v => (none, updateValue jm labels v)

/-- The inner loop of `process` for one metric, over the results its path
iterator still has to yield: whether it left `success` alone, and the registry
mutations made. -/
def processRecords (L : GoLib) (metric : jsonMetric) :
    List (Except String Value) → Bool × List Update
  | [] => (true, [])
  | .error err :: _ =>
    if err = "cannot iterate over: null" then (true, []) else (false, [])
  | .ok object :: rest =>
    match collect L metric object with
    | (some _, ups) => (false, ups)
    | (none, ups) =>
      let r := processRecords L metric rest
      (r.1, ups ++ r.2)

/-- Go `(*JSONCollector).process(ctx, input)`: the returned flag and the
registry mutations made, in order, of an execution in which every registry
mutation returns (see `processPanics`). -/
def process (L : GoLib) (jc : JSONCollector) (input : Value) : Bool × List Update :=
  jc.metrics.foldl
    (fun acc metric =>
      let r := processRecords L metric (metric.path input)
      (acc.1 && r.1, acc.2 ++ r.2))
    (true, [])

/-- Whether `process` panics on a document instead of returning: whether one of
the registry mutations it comes to panics.  The execution ends at the first such
mutation: the mutations listed after it are not made and no flag is returned. -/
def processPanics (L : GoLib) (jc : JSONCollector) (input : Value) : Bool :=
  (process L jc input).2.any Update.panics

/-- The series of the registry: per metric name and label combination, the
current value when the series exists. -/
abbrev Store := String → Labels → Option F64

/-- Effect of one mutation on the series it addresses: `With(labels)` creates
the series at zero when it is new, then `Add` adds and `Set` overwrites; `Add`
on a counter panics on a negative value and adds nothing. -/
def bump (L : GoLib) (cur : Option F64) (u : Update) : Option F64 :=
  match u.op with
  | .counterAdd =>
    if u.v.isNegative then some (cur.getD (.finite 0))
    else some (L.fadd (cur.getD (.finite 0)) u.v)
  | .gaugeAdd => some (L.fadd (cur.getD (.finite 0)) u.v)
  | .gaugeSet => some u.v

/-- Effect of one mutation on the series `ls` of the metric `m`, whose current
value is `cur`: only a mutation addressed to that series changes it. -/
def stepAt (L : GoLib) (m : String) (ls : Labels) (cur : Option F64) (u : Update) :
    Option F64 :=
  if m = u.metric ∧ ls = u.labels then bump L cur u else cur

/-- Effect of one mutation on the series of the registry. -/
def applyUpdate (L : GoLib) (st : Store) (u : Update) : Store :=
  fun m ls => stepAt L m ls (st m ls) u

/-- Effect of a sequence of mutations that all return, oldest first. -/
def applyUpdates (L : GoLib) (st : Store) (ups : List Update) : Store :=
  ups.foldl (applyUpdate L) st

/-! ## collector/config.go -/

/-- Go `Label` of the collector configuration. -/
structure Label where
  Name : String
  Value : String
  deriving DecidableEq

/-- Go `Metric` of the collector configuration; `Type_` is its field `Type`. -/
structure Metric where
  Name : String
  Help : String
  Path : String
  Filter : String
  Operation : String
  Value : String
  Labels : List Label
  Type_ : String
  deriving DecidableEq

/-- Go `Collector` of the collector configuration (metric entries are taken
non-nil). -/
structure Collector where
  id : String
  Namespace : String
  DefaultLabels : List Label
  Metrics : List Metric
  deriving DecidableEq

/-- Go `Config` of the collector package: the map from collector id to
collector, in the order the loop of `validateConfig` visits it (entries are
taken non-nil). -/
structure Config where
  Collectors : List (String × Collector)

/-- Go `setDefaults(m)`. -/
def setDefaults (m : Metric) : Metric :=
  let m := if m.Help = "" then { m with Help := "json_exporter metric:" ++ m.Name } else m
  let m := if m.Type_ = "" then { m with Type_ := CounterMetric } else m
  let m := if m.Value = "" then { m with Value := "1" } else m
  m

/-- The inner loop of the collector `validateConfig` over the metrics of one
collector still to visit, `names` holding the keys seen: the error by its
message, or the keys seen afterwards. -/
def validateMetrics (name : String) (c : Collector) :
    List Metric → List String → Except String (List String)
  | [], names => .ok names
  | m :: rest, names =>
    if (c.Namespace ++ "_" ++ m.Name) ∈ names then
      .error ("metrics name must be unique duplicate names found collector:" ++ name
        ++ " namespace:" ++ c.Namespace ++ " metric:" ++ m.Name)
    else validateMetrics name c rest ((c.Namespace ++ "_" ++ m.Name) :: names)

/-- The outer loop of the collector `validateConfig` over the collectors still
to visit: the error by its message, `none` for nil. -/
def validateCollectors : List (String × Collector) → List String → Option String
  | [], _ => none
  | (name, c) :: rest, names =>
    match validateMetrics name c c.Metrics names with
    | .error err => some err
    | .ok names1 => validateCollectors rest names1

/-- Go `validateConfig(config)` of the collector package. -/
def validateConfig (config : Config) : Option String :=
  validateCollectors config.Collectors []

end collector

/-! ## net/http headers -/

namespace http

/-- Go `validHeaderFieldByte`: the token characters of RFC 7230. -/
def validHeaderFieldByte (c : Char) : Bool :=
  let n := c.toNat
  decide (n = 33 ∨ (35 ≤ n ∧ n ≤ 39) ∨ n = 42 ∨ n = 43 ∨ n = 45 ∨ n = 46
    ∨ (48 ≤ n ∧ n ≤ 57) ∨ (65 ≤ n ∧ n ≤ 90) ∨ (94 ≤ n ∧ n ≤ 122) ∨ n = 124 ∨ n = 126)

/-- The rewriting loop of `canonicalMIMEHeaderKey`: upper case at the start and
after each dash, lower case elsewhere. -/
def canonLoop : List Char → Bool → List Char
  | [], _ => []
  | c :: cs, upper =>
    let c1 :=
      if upper ∧ 97 ≤ c.toNat ∧ c.toNat ≤ 122 then Char.ofNat (c.toNat - 32)
      else if ¬ upper ∧ 65 ≤ c.toNat ∧ c.toNat ≤ 90 then Char.ofNat (c.toNat + 32)
      else c
    c1 :: canonLoop cs (c1 = '-')

/-- Go `textproto.CanonicalMIMEHeaderKey(s)`: a key holding a byte that is no
token character is returned unchanged. -/
def CanonicalMIMEHeaderKey (s : String) : String :=
  if s.data.all validHeaderFieldByte then String.mk (canonLoop s.data true) else s

/-- Go `http.Header`, a map from (canonical) header name to its values. -/
abbrev Header := List (String × List String)

/-- Go `http.Header.Get(key)`: the first value under the canonical form of
`key`, the empty string when there is none. -/
def Header.Get (h : Header) (key : String) : String :=
  match List.lookup (CanonicalMIMEHeaderKey key) h with
  | none => ""
  | some [] => ""
  | some (v :: _) => v

/-- Go `checkWriteHeaderCode(code)` of net/http, called first by `WriteHeader`:
whether it returns; it panics on a code below 100 or above 999. -/
def checkWriteHeaderCode (code : Int) : Bool :=
  !(decide (code < 100) || decide (code > 999))

end http

/-! ## webhook/config.go and webhook/webhook.go -/

namespace webhook

/-- Go `Header` of the webhook configuration. -/
structure Header where
  Name : String
  Value : String
  ValueFromEnv : String
  deriving DecidableEq

/-- Go `Header.GetValue()`. -/
def Header.GetValue (L : GoLib) (h : Header) : String :=
  if h.Value ≠ "" then h.Value else L.getenv h.ValueFromEnv

/-- Go `Collector` of the webhook configuration; `transformCode` is `none` for
a nil pointer. -/
structure Collector where
  ID : String
  Transform : String
  transformCode : Option Code

/-- Go field `WebHook.Response`. -/
structure Response where
  Headers : List Header
  Message : String
  Code : Int

/-- Go `WebHook`; `AuthHeaders` is the field `Auth.Headers`. -/
structure WebHook where
  id : String
  Method : String
  Path : String
  AuthHeaders : List Header
  Response : Response
  Collectors : List Collector

/-- A channel (`chan any`), by identity. -/
abbrev Chan := Nat

/-- Go `WebHookHandler`: the embedded webhook and the map from collector id to
its input channel, `none` for a nil channel. -/
structure WebHookHandler where
  WebHook : WebHook
  collectors : List (String × Option Chan)

/-- Go `*http.Request`, as far as the handler reads it. -/
structure Request where
  Method : String
  Header : http.Header
  Body : String

/-- How an execution of the handler ends. -/
inductive Ending where
  | returned
  | blocked
  | panicked
  deriving DecidableEq

/-- What one execution of `ServeHTTP` does: the status passed to a call of
`WriteHeader` that returns, the response headers set, the body written, the
documents sent with the channel each went to, the label values of the increments
of `pcRequests`, and how the execution ends (a send on a nil channel blocks
forever; running a nil `transformCode` panics, and so does `WriteHeader` on a
code that is no three-digit number). -/
structure Served where
  status : Option Int
  headers : List (String × String)
  body : String
  sent : List (Chan × Value)
  requests : List (String × String)
  ending : Ending

/-- Go `isAuthHeadersMatching(reqHeaders, expected)`. -/
def isAuthHeadersMatching (L : GoLib) (reqHeaders : http.Header)
    (expected : List Header) : Bool :=
  expected.foldl
    (fun verified eh => if reqHeaders.Get eh.Name ≠ eh.GetValue L then false else verified)
    true

/-- The inner loop of `ServeHTTP` for one collector binding, over the results
its transform iterator still has to yield: the documents sent, and whether the
loop was left (`false` when a send blocks forever). -/
def forward (ch : Option Chan) : List (Except String Value) → List (Chan × Value) × Bool
  | [] => ([], true)
  | .error _ :: _ => ([], true)
  | .ok object :: rest =>
    match ch with
    | none => ([], false)
    | some c =>
      let r := forward ch rest
      ((c, object) :: r.1, r.2)

/-- The loop of `ServeHTTP` over the collector bindings: the documents sent and
how the loop ends. -/
def runTransforms (wh : WebHookHandler) (payload : Value) :
    List Collector → List (Chan × Value) × Ending
  | [] => ([], .returned)
  | c :: rest =>
    match c.transformCode with
    | none => ([], .panicked)
    | some code =>
      match forward ((List.lookup c.ID wh.collectors).join) (code payload) with
      | (sent, false) => (sent, .blocked)
      | (sent, true) =>
        let r := runTransforms wh payload rest
        (sent ++ r.1, r.2)

/-- Go `strconv.Itoa`. -/
def Itoa (n : Int) : String := toString n

/-- Go `(*WebHookHandler).ServeHTTP(w, r)`. -/
def ServeHTTP (L : GoLib) (wh : WebHookHandler) (r : Request) : Served :=
  if r.Method ≠ wh.WebHook.Method then
    ⟨some 400, [], "", [], [(wh.WebHook.id, "400")], .returned⟩
  else if !isAuthHeadersMatching L r.Header wh.WebHook.AuthHeaders then
    ⟨some 401, [], "", [], [(wh.WebHook.id, "401")], .returned⟩
  else
    match L.jsonDecode r.Body with
    | .error _ => ⟨some 400, [], "", [], [(wh.WebHook.id, "400")], .returned⟩
    | .ok payload =>
      match runTransforms wh payload wh.WebHook.Collectors with
      | (sent, .returned) =>
        if http.checkWriteHeaderCode wh.WebHook.Response.Code then
          ⟨some wh.WebHook.Response.Code,
            wh.WebHook.Response.Headers.map (fun h => (h.Name, h.GetValue L)),
            wh.WebHook.Response.Message, sent,
            [(wh.WebHook.id, Itoa wh.WebHook.Response.Code)], .returned⟩
        else
          ⟨none, wh.WebHook.Response.Headers.map (fun h => (h.Name, h.GetValue L)), "", sent,
            [], .panicked⟩
      | (sent, ending) => ⟨none, [], "", sent, [], ending⟩

/-- The gojq library: parsing a query text and compiling the parsed query, each
failing with an error given by its message. -/
structure Gojq where
  Query : Type
  Parse : String → Except String Query
  Compile : Query → Except String Code

/-- Go `parseAndCompileJQExp(exp)` of the webhook package. -/
def parseAndCompileJQExp (G : Gojq) (exp : String) : Except String Code :=
  match G.Parse exp with
  | .error err => .error ("jq query parse error " ++ err)
  | .ok query =>
    match G.Compile query with
    | .error err => .error ("jq query compile error " ++ err)
    | .ok code => .ok code

/-- The loop of `webHookHandler` over the collector bindings still to visit:
the map `h.collectors` (newest assignment first), the bindings with their
`transformCode` assigned, and the variable `err` (`none` for nil) as the last
iteration left it. -/
def bindCollectors (G : Gojq) (collectorInputs : List (String × Option Chan)) :
    List Collector → List (String × Option Chan) → Option String →
      List (String × Option Chan) × List Collector × Option String
  | [], collectors, err => (collectors, [], err)
  | c :: rest, collectors, _ =>
    let collectors := (c.ID, (List.lookup c.ID collectorInputs).join) :: collectors
    let compiled := parseAndCompileJQExp G c.Transform
    let c1 : Collector :=
      { c with transformCode := match compiled with
                                 | .ok code => some code
                                 | .error _ => none }
    let err := match compiled with
      | .ok _ => none
      | .error e => some e
    let r := bindCollectors G collectorInputs rest collectors err
    (r.1, c1 :: r.2.1, r.2.2)

/-- Go `webHookHandler(log, wh, collectorInputs)`: the handler, or the error by
its message. -/
def webHookHandler (G : Gojq) (wh : WebHook) (collectorInputs : List (String × Option Chan)) :
    Except String WebHookHandler :=
  match bindCollectors G collectorInputs wh.Collectors [] none with
  | (_, _, some err) => .error ("unable to parse transform code err:" ++ err)
  | (collectors, bindings, none) =>
    .ok
      { WebHook :=
          { wh with
            Collectors := bindings
            Response :=
              { wh.Response with
                Code := if wh.Response.Code = 0 then 200 else wh.Response.Code } }
        collectors := collectors }

/-- Go `Config` of the webhook package: the map from webhook id to webhook, in
the order the loop of `validateConfig` visits it (entries are taken non-nil). -/
structure Config where
  WebHooks : List (String × WebHook)

/-- The loop of the webhook `validateConfig` over the webhooks still to visit,
`paths` holding the paths seen: the error by its message, `none` for nil. -/
def validateFrom : List (String × WebHook) → List String → Option String
  | [], _ => none
  | (id, wh) :: rest, paths =>
    if wh.Path = "" then some ("empty path not allowed webhook:" ++ id)
    else if wh.Path.data.head? ≠ some '/' then
      some ("path should have \x27/\x27 prefix webhook:" ++ id)
    else if wh.Path ∈ paths then
      some ("webhooks path must be unique duplicate found webhook:" ++ id
        ++ " path:" ++ wh.Path)
    else validateFrom rest (wh.Path :: paths)

/-- Go `validateConfig(config)` of the webhook package. -/
def validateConfig (config : Config) : Option String :=
  validateFrom config.WebHooks []

end webhook

/-! ## collector/utils.go and collector/collector.go: construction -/

namespace collector

/-- Go `parseAndCompileJQExp(exp)` of the collector package. -/
def parseAndCompileJQExp (G : webhook.Gojq) (exp : String) : Except String Code :=
  let exp := if exp = "" then "." else exp
  match G.Parse exp with
  | .error err => .error ("jq query parse error " ++ err)
  | .ok query =>
    match G.Compile query with
    | .error err => .error ("jq query compile error " ++ err)
    | .ok code => .ok code

/-- The loop of `newJsonMetric` over the labels of the metric still to compile:
the compiled labels, or the error by its message. -/
def compileLabels (G : webhook.Gojq) (metricName : String) :
    List Label → Except String (List jsonLabel)
  | [] => .ok []
  | mcl :: rest =>
    match parseAndCompileJQExp G mcl.Value with
    | .error err =>
      .error ("unable to parse label expression metric:" ++ metricName ++ " name:"
        ++ mcl.Name ++ " err:" ++ err)
    | .ok code =>
      match compileLabels G metricName rest with
      | .error err => .error err
      | .ok labels => .ok (⟨mcl.Name, code⟩ :: labels)

/-- Go `newJsonMetric(metric, reg, ns, defaultLabels)` for a non-nil metric: the
metric with its compiled expressions, or the error by its message.  The
registration of its vector in the registry is not part of the result. -/
def newJsonMetric (G : webhook.Gojq) (metric : Metric) (defaultLabels : List jsonLabel) :
    Except String jsonMetric :=
  let metric := setDefaults metric
  match parseAndCompileJQExp G metric.Path with
  | .error err =>
    .error ("unable to parse path expression metric:" ++ metric.Name ++ " err:" ++ err)
  | .ok path =>
    match parseAndCompileJQExp G metric.Filter with
    | .error err =>
      .error ("unable to parse filter expression metric:" ++ metric.Name ++ " err:" ++ err)
    | .ok filter =>
      match parseAndCompileJQExp G metric.Value with
      | .error err =>
        .error ("unable to parse value expression metric:" ++ metric.Name ++ " err:" ++ err)
      | .ok value =>
        match compileLabels G metric.Name metric.Labels with
        | .error err => .error err
        | .ok labels =>
          if metric.Type_ = CounterMetric ∨ metric.Type_ = GaugeMetric then
            .ok
              { name := metric.Name, path := path, filter := filter, value := value,
                labels := defaultLabels ++ labels, metricType := metric.Type_,
                operation := metric.Operation }
          else .error "unknown metric type"

end collector

/-! ## collector/collector.go: the loop of Start -/

namespace collector

/-- Where the goroutine that runs `Start` stands: at the `select` of the loop;
in `case input := <-jc.Input` with the document received, before `wg.Add(1)`;
after `wg.Add(1)`, before the `go` statement; in `case <-ctx.Done()` at
`wg.Wait()`; or returned. -/
inductive StartPos where
  | selecting
  | received (input : Value)
  | added (input : Value)
  | waiting
  | returned
  deriving DecidableEq

/-- The state of an execution of `Start`: whether the channel `ctx.Done()` is
closed, the documents that senders hold ready on `jc.Input`, where the goroutine
of `Start` stands, the counter of the wait group `wg`, the inputs of the jobs
spawned that have not run their deferred `wg.Done()` yet, and, as history, the
documents received and the inputs of the jobs that have run `wg.Done()`, newest
first. -/
structure StartState where
  done : Bool
  offered : List Value
  pos : StartPos
  wg : Int
  running : List Value
  accepted : List Value
  finished : List Value
  deriving DecidableEq

/-- What happens during an execution of `Start`: the parent context is
cancelled; a sender becomes ready to send a document on `jc.Input`; the `select`
takes `case <-ctx.Done()`; the `select` takes `case input := <-jc.Input` with the
document of a ready sender; `wg.Add(1)`; the `go` statement; the job of an input
runs to the end of its deferred `wg.Done()`; `wg.Wait()` returns and `Start`
returns. -/
inductive StartEvent where
  | cancel
  | offer (input : Value)
  | selectDone
  | selectInput (input : Value)
  | wgAdd
  | spawn
  | jobDone (input : Value)
  | waitReturn
  deriving DecidableEq

/-- The state in which `Start` is called: the context is live, no sender is
ready, and the wait group is new. -/
def Start.initial : StartState :=
  ⟨false, [], .selecting, 0, [], [], []⟩

/-- One step of an execution of Go `(*JSONCollector).Start(ctx)`: the state
after the event, `none` when the event cannot happen in the state.  A `select`
takes any of its cases whose communication can proceed; `wg.Wait()` returns when
the counter is zero. -/
def Start.step (s : StartState) : StartEvent → Option StartState
  | .cancel => some { s with done := true }
  | .offer input => some { s with offered := s.offered ++ [input] }
  | .selectDone =>
    if s.pos = .selecting ∧ s.done = true then some { s with pos := .waiting } else none
  | .selectInput input =>
    if s.pos = .selecting ∧ input ∈ s.offered then
      some { s with
             pos := .received input
             offered := s.offered.erase input
             accepted := input :: s.accepted }
    else none
  | .wgAdd =>
    match s.pos with
    | .received input => some { s with pos := .added input, wg := s.wg + 1 }
    | _ => none
  | .spawn =>
    match s.pos with
    | .added input => some { s with pos := .selecting, running := input :: s.running }
    | _ => none
  | .jobDone input =>
    if input ∈ s.running then
      some { s with
             running := s.running.erase input
             wg := s.wg - 1
             finished := input :: s.finished }
    else none
  | .waitReturn =>
    if s.pos = .waiting ∧ s.wg = 0 then some { s with pos := .returned } else none

/-- An execution of `Start` from a state along a sequence of events: the state
reached, `none` when one of the events cannot happen. -/
def Start.run (s : StartState) : List StartEvent → Option StartState
  | [] => some s
  | e :: es =>
    match Start.step s e with
    | none => none
    | some s1 => Start.run s1 es

end collector

/-! ## Definitions used to state the properties -/

/-- The values a result sequence yields before its first error. -/
def okPrefix : List (Except String Value) → List Value
  | [] => []
  | .error _ :: _ => []
  | .ok v :: rest => v :: okPrefix rest

/-- The strings `strconv.ParseBool` reads as true. -/
def trueLiterals : List String := ["1", "t", "T", "true", "TRUE", "True"]

/-- The strings `strconv.ParseBool` reads as false. -/
def falseLiterals : List String := ["0", "f", "F", "false", "FALSE", "False"]

/-- A spelling of an infinity: an optional sign, then `inf` or `infinity` in
any letter case. -/
def isInfSpelling (s : String) : Prop :=
  ∃ body : List Char,
    (s.data = body ∨ s.data = '+' :: body ∨ s.data = '-' :: body) ∧
    (body.map asciiLower = "inf".data ∨ body.map asciiLower = "infinity".data)

/-- A library instance for the worked examples: no environment variable is set,
the body `null` decodes to nil, finite numbers are added exactly (as float64
addition does on small integers), and plain digit strings of at most fifteen
digits are the only literals converted. -/
def exampleLib : GoLib where
  atof := fun s =>
    if s.data.all strconv.isDigit ∧ 0 < s.data.length ∧ s.data.length ≤ 15 then
      some ((s.data.foldl (fun n c => n * 10 + (c.toNat - 48)) 0 : Nat) : ℚ)
    else none
  isPrint := fun _ => false
  fmtFloat := fun _ => ""
  jsonDecode := fun s => if s = "null" then .ok .null else .error "invalid character"
  getenv := fun _ => ""
  fadd := fun a b =>
    match a, b with
    | .finite x, .finite y => .finite (x + y)
    | .nan, _ => .nan
    | _, .nan => .nan
    | .posInf, .negInf => .nan
    | .negInf, .posInf => .nan
    | .posInf, _ => .posInf
    | _, .posInf => .posInf
    | .negInf, _ => .negInf
    | _, .negInf => .negInf

/-- The label combination and the sanitized value of a record that passes the
filter of a metric and extracts without error; `none` for any other record. -/
def sample (L : GoLib) (m : collector.jsonMetric) (v : Value) :
    Option (collector.Labels × F64) :=
  match collector.extractFirstValue m.filter v with
  | .error _ => none
  | .ok fv =>
    if fv = .bool false then none
    else
      match collector.extractLabels L m v, collector.extractFirstValue m.value v with
      | .ok ls, .ok x =>
        match collector.sanitizeValue L x with
        | .ok f => some (ls, f)
        | .error _ => none
      | _, _ => none

/-- The sanitized values, in sequence order, of the filter-passing records of a
document that carry the label combination `ls` for the metric `m`. -/
def valuesFor (L : GoLib) (m : collector.jsonMetric) (input : Value)
    (ls : collector.Labels) :
    List F64 :=
  (((m.path input).filterMap (fun r =>
      match r with
      | .ok v => sample L m v
      | .error _ => none)).filter (fun p => decide (p.1 = ls))).map Prod.snd

/-- A series after the values `vals` were added to it in order: unchanged when
there is none, else the running sum started from its current value, or from zero
when the series is new. -/
def accumulated (L : GoLib) (cur : Option F64) (vals : List F64) : Option F64 :=
  match vals with
  | [] => cur
  | x :: xs => some ((x :: xs).foldl L.fadd (cur.getD (.finite 0)))

/-- A series after the values `vals` were set on it in order: unchanged when
there is none, else the last of them. -/
def lastSet (cur : Option F64) (vals : List F64) : Option F64 :=
  match vals.getLast? with
  | none => cur
  | some x => some x

/-- The metric of the repository test `repeated-data`, on the records 2, 5, 3, 4:
the record 5 is filtered out, the label `id` is `A` for 2, `B` for 5 and `C`
otherwise, the value is the record. -/
def exampleMetric (metricType operation : String) : collector.jsonMetric where
  name := "value"
  path := fun _ => [.ok (.int 2), .ok (.int 5), .ok (.int 3), .ok (.int 4)]
  filter := fun v => [.ok (.bool (v != .int 5))]
  value := fun v => [.ok v]
  labels :=
    [⟨"id", fun v =>
      [.ok (.string (if v = .int 2 then "A" else if v = .int 5 then "B" else "C"))]⟩]
  metricType := metricType
  operation := operation

/-- A handler with one collector binding whose transform yields an error and
then a document. -/
def errThenDocHandler : webhook.WebHookHandler where
  WebHook :=
    { id := "hook", Method := "POST", Path := "/hook", AuthHeaders := [],
      Response := ⟨[], "ok", 200⟩,
      Collectors :=
        [⟨"example", ".[]", some (fun _ => [.error "boom", .ok (.string "late")])⟩] }
  collectors := [("example", some 0)]

/-- A handler with one collector binding whose transform yields a document, an
error, and a further document. -/
def docErrDocHandler : webhook.WebHookHandler where
  WebHook :=
    { id := "hook", Method := "POST", Path := "/hook", AuthHeaders := [],
      Response := ⟨[], "ok", 200⟩,
      Collectors :=
        [⟨"example", ".[]",
          some (fun _ => [.ok (.string "early"), .error "boom", .ok (.string "late")])⟩] }
  collectors := [("example", some 0)]

/-- The results of a path sequence that the loop of `process` consumes for a
metric: those up to and including the first error element, or the first record
on which `collect` returns an error. -/
def consumed (L : GoLib) (m : collector.jsonMetric) :
    List (Except String Value) → List (Except String Value)
  | [] => []
  | .error e :: _ => [.error e]
  | .ok v :: rest =>
    if (collector.collect L m v).1 = none then .ok v :: consumed L m rest else [.ok v]

/-- A result of a path sequence that fails the document: a path evaluation error
other than the null-iteration error, or a record on which `collect` returns an
error. -/
def isFailure (L : GoLib) (m : collector.jsonMetric) : Except String Value → Prop
  | .error e => e ≠ "cannot iterate over: null"
  | .ok v => (collector.collect L m v).1 ≠ none

/-- The metric of the repository test `empty-data`: on the document `{}` the
path `.values[]` yields the null-iteration error. -/
def missingPathMetric : collector.jsonMetric where
  name := "value_count"
  path := fun _ => [.error "cannot iterate over: null"]
  filter := fun v => [.ok v]
  value := fun _ => [.ok (.int 1)]
  labels := []
  metricType := "counter"
  operation := ""

/-- A gojq instance for the worked examples: the identity query `.` parses and
compiles to the identity, and no other text is parsed. -/
def exampleJq : webhook.Gojq where
  Query := String
  Parse := fun s => if s = "." then .ok s else .error ("unexpected token in " ++ s)
  Compile := fun _ => .ok (fun v => [.ok v])

/-- A webhook definition with no auth header and no response code, and one
collector binding with the transform `transform` for each of the given collector
ids. -/
def exampleHook (transform : String) (ids : List String) : webhook.WebHook where
  id := "hook"
  Method := "POST"
  Path := "/hook"
  AuthHeaders := []
  Response := ⟨[], "ok", 0⟩
  Collectors := ids.map (fun id => ⟨id, transform, none⟩)

/-- A webhook definition with two collector bindings, the first with a
transform that does not parse, the second with the identity. -/
def brokenFirstHook : webhook.WebHook where
  id := "hook"
  Method := "POST"
  Path := "/hook"
  AuthHeaders := []
  Response := ⟨[], "ok", 0⟩
  Collectors := [⟨"first", "(", none⟩, ⟨"second", ".", none⟩]

/-- The key under which the collector `validateConfig` records a metric: its
namespace, an underscore and its name. -/
def metricKey (c : collector.Collector) (m : collector.Metric) : String :=
  c.Namespace ++ "_" ++ m.Name

/-- The keys of all metric definitions of the collectors, in visiting order. -/
def metricKeys (cs : List (String × collector.Collector)) : List String :=
  cs.flatMap (fun p => p.2.Metrics.map (metricKey p.2))

/-- The namespace and name of all metric definitions of the collectors, in
visiting order. -/
def metricDefs (cs : List (String × collector.Collector)) : List (String × String) :=
  cs.flatMap (fun p => p.2.Metrics.map (fun m => (p.2.Namespace, m.Name)))

/-- The keys `ks` are pairwise distinct and none of them is in `seen`. -/
def fresh (ks seen : List String) : Prop :=
  ks.Nodup ∧ ∀ k ∈ ks, k ∉ seen

/-- A collector configuration in which no two metric definitions have both the
same namespace and the same name, while two have the same key. -/
def underscoreConfig : collector.Config where
  Collectors :=
    [("one", ⟨"one", "a_b", [], [⟨"c", "", "", "", "", "", [], ""⟩]⟩),
     ("two", ⟨"two", "a", [], [⟨"b_c", "", "", "", "", "", [], ""⟩]⟩)]

/-- The first value a result sequence yields, nil when it yields nothing. -/
def firstOrNil : List (Except String Value) → Value
  | .ok v :: _ => v
  | _ => .null

/-- A metric with the two labels `id` and `kind`, of which the second fails to
evaluate on the record 0. -/
def twoLabelMetric : collector.jsonMetric where
  name := "value"
  path := fun v => [.ok v]
  filter := fun v => [.ok v]
  value := fun v => [.ok v]
  labels :=
    [⟨"id", fun v => [.ok v, .ok (.string "second")]⟩,
     ⟨"kind", fun v => if v = .int 0 then [.error "boom"] else []⟩]
  metricType := "counter"
  operation := ""

/-- An expression text with the identity `.` in the place of the empty text. -/
def orIdentity (exp : String) : String := if exp = "" then "." else exp

/-- A metric definition with `.` in the place of every empty path, filter and
label expression text. -/
def withIdentity (m : collector.Metric) : collector.Metric :=
  { m with
    Path := orIdentity m.Path
    Filter := orIdentity m.Filter
    Labels := m.Labels.map (fun l => { l with Value := orIdentity l.Value }) }

/-- A counter whose path yields the records 2, `x` and 3, the value of a record
being the record: the second record has no numeric value. -/
def secondFailsMetric : collector.jsonMetric where
  name := "value"
  path := fun _ => [.ok (.float (.finite 2)), .ok (.string "x"), .ok (.float (.finite 3))]
  filter := fun v => [.ok v]
  value := fun v => [.ok v]
  labels := []
  metricType := "counter"
  operation := ""

/-- The document that `Start` has received and not yet handed to a job. -/
def inHand : collector.StartPos → List Value
  | .received input => [input]
  | .added input => [input]
  | _ => []

/-- Whether `Start` has left the `select` loop through `case <-ctx.Done()`. -/
def leftLoop : collector.StartPos → Bool
  | .waiting => true
  | .returned => true
  | _ => false

/-- What holds of every state of an execution of `Start`: the counter of the
wait group counts the jobs spawned and not done, and the job about to be spawned
once `wg.Add(1)` has run; the documents received are those in hand, those of the
jobs not done and those of the jobs done; the loop is left only with the context
cancelled; and once `Start` has returned no job is left that is not done. -/
def startInvariant (s : collector.StartState) : Prop :=
  s.wg = (s.running.length : Int)
      + (match s.pos with
         | .added _ => 1
         | _ => 0) ∧
  s.accepted.Perm (inHand s.pos ++ s.running ++ s.finished) ∧
  (leftLoop s.pos = true → s.done = true) ∧
  (s.pos = .returned → s.running = [])

/-- A counter with no label whose path yields the records 1, -1 and 5, the
value of a record being the record. -/
def negativeCounter : collector.jsonMetric where
  name := "value"
  path := fun _ => [.ok (.float (.finite 1)), .ok (.float (.finite (-1))), .ok (.float (.finite 5))]
  filter := fun v => [.ok v]
  value := fun v => [.ok v]
  labels := []
  metricType := "counter"
  operation := ""

/-! ## Properties of the webhook header check -/

namespace webhook

/-- The flag loop of `isAuthHeadersMatching` is a conjunction over the list. -/
theorem auth_foldl (L : GoLib) (h : http.Header) (expected : List Header) (b : Bool) :
    expected.foldl
      (fun verified eh => if h.Get eh.Name ≠ eh.GetValue L then false else verified) b
      = (b && expected.all (fun eh => decide (h.Get eh.Name = eh.GetValue L))) := by
  induction expected generalizing b with
  | nil => simp
  | cons eh rest ih =>
    simp only [List.foldl_cons, List.all_cons]
    rw [ih]
    by_cases hh : h.Get eh.Name = eh.GetValue L
    · simp [hh]
    · simp [hh]

/-- C1 (as stated, refuted): with an empty request header set and one configured
header whose literal value is empty and whose environment variable is unset, the
header is absent from the request and the check still passes. -/
theorem C1_absent_header_accepted :
    List.lookup (http.CanonicalMIMEHeaderKey "Authorization") ([] : http.Header) = none ∧
    ∀ L : GoLib, L.getenv "WEBHOOK_KEY" = "" →
      isAuthHeadersMatching L [] [⟨"Authorization", "", "WEBHOOK_KEY"⟩] = true := by
  refine ⟨rfl, ?_⟩
  intro L hL
  simp [isAuthHeadersMatching, http.Header.Get, Header.GetValue, hL]

/-- C1 (amended): `isAuthHeadersMatching` returns true exactly when, for every
configured header, the first request value under the canonical form of its name
(the empty string when the header is absent) equals the expected value; it passes
with no configured header, and rejects a request lacking a configured header
whose expected value is not empty. -/
theorem C1_auth_headers_matching (L : GoLib) (h : http.Header) (expected : List Header) :
    (isAuthHeadersMatching L h expected = true ↔
      ∀ eh ∈ expected, h.Get eh.Name = eh.GetValue L) ∧
    isAuthHeadersMatching L h [] = true ∧
    (∀ eh ∈ expected, List.lookup (http.CanonicalMIMEHeaderKey eh.Name) h = none →
      eh.GetValue L ≠ "" → isAuthHeadersMatching L h expected = false) := by
  have key : isAuthHeadersMatching L h expected = true ↔
      ∀ eh ∈ expected, h.Get eh.Name = eh.GetValue L := by
    unfold isAuthHeadersMatching
    rw [auth_foldl]
    simp [List.all_eq_true]
  refine ⟨key, rfl, ?_⟩
  intro eh hmem habs hne
  have hget : h.Get eh.Name = "" := by simp [http.Header.Get, habs]
  cases hres : isAuthHeadersMatching L h expected with
  | false => rfl
  | true =>
    have := key.mp hres eh hmem
    rw [hget] at this
    exact absurd this.symm hne

/-! ## Properties of the transform loop -/

/-- With a channel at hand, the inner loop sends the values before the first
error and is left. -/
theorem forward_some (ch : Chan) (xs : List (Except String Value)) :
    forward (some ch) xs = ((okPrefix xs).map (fun v => (ch, v)), true) := by
  induction xs with
  | nil => rfl
  | cons x rest ih =>
    cases x with
    | error e => rfl
    | ok v => simp [forward, okPrefix, ih]

/-- The documents a binding contributes: the values its transform yields before
its first error, each with the channel of the binding. -/
theorem runTransforms_sent (wh : WebHookHandler) (payload : Value) (cs : List Collector)
    (hc : ∀ c ∈ cs, ∃ code ch,
      c.transformCode = some code ∧ (List.lookup c.ID wh.collectors).join = some ch) :
    runTransforms wh payload cs =
      (cs.flatMap (fun c =>
          match c.transformCode, (List.lookup c.ID wh.collectors).join with
          | some code, some ch => (okPrefix (code payload)).map (fun v => (ch, v))
          | _, _ => []),
        Ending.returned) := by
  induction cs with
  | nil => rfl
  | cons c rest ih =>
    obtain ⟨code, ch, h1, h2⟩ := hc c (List.mem_cons_self _ _)
    have ih1 := ih (fun c1 hc1 => hc c1 (List.mem_cons_of_mem _ hc1))
    simp only [runTransforms, h1, h2, forward_some, ih1, List.flatMap_cons]

/-- C2 (as stated, refuted): a transform yields an error and then the document
`"late"`; the request is answered 200 and no document is sent, so the document
that follows the error is not forwarded. -/
theorem C2_document_after_error_not_forwarded :
    (∀ payload, (errThenDocHandler.WebHook.Collectors.map
        (fun c => c.transformCode.map (fun code => code payload)))
      = [some [.error "boom", .ok (.string "late")]]) ∧
    (ServeHTTP exampleLib errThenDocHandler ⟨"POST", [], "null"⟩).status = some 200 ∧
    (ServeHTTP exampleLib errThenDocHandler ⟨"POST", [], "null"⟩).sent = [] := by
  refine ⟨fun _ => rfl, ?_, ?_⟩ <;> decide

/-- C2 (amended): in `ServeHTTP`, on a request that passes the method, header
and decoding checks, each collector binding forwards to its collector exactly the
documents its transform yields before its first error element: the error element
is dropped together with every element that follows it in the same sequence, and
the next bindings are still run. -/
theorem C2_transform_error_ends_binding (L : GoLib) (wh : WebHookHandler) (r : Request)
    (payload : Value)
    (hm : r.Method = wh.WebHook.Method)
    (ha : isAuthHeadersMatching L r.Header wh.WebHook.AuthHeaders = true)
    (hd : L.jsonDecode r.Body = .ok payload)
    (hc : ∀ c ∈ wh.WebHook.Collectors, ∃ code ch,
      c.transformCode = some code ∧ (List.lookup c.ID wh.collectors).join = some ch) :
    (ServeHTTP L wh r).sent =
      wh.WebHook.Collectors.flatMap (fun c =>
        match c.transformCode, (List.lookup c.ID wh.collectors).join with
        | some code, some ch => (okPrefix (code payload)).map (fun v => (ch, v))
        | _, _ => []) := by
  unfold ServeHTTP
  simp only [hm, ne_eq, not_true_eq_false, if_false, ha, Bool.not_true, hd,
    runTransforms_sent wh payload _ hc]
  by_cases hcode : http.checkWriteHeaderCode wh.WebHook.Response.Code = true <;> simp [hcode]

/-- C2, at a concrete request: of the sequence document, error, document, only
the first document reaches the collector. -/
theorem C2_transform_error_ends_binding_witness :
    (ServeHTTP exampleLib docErrDocHandler ⟨"POST", [], "null"⟩).sent
      = [(0, .string "early")] := by
  rw [C2_transform_error_ends_binding exampleLib docErrDocHandler ⟨"POST", [], "null"⟩ .null
    rfl (by decide) rfl
    (by
      intro c hc
      simp only [docErrDocHandler, List.mem_singleton] at hc
      subst hc
      exact ⟨_, 0, rfl, rfl⟩)]
  rfl

end webhook

/-! ## Properties of the value sanitizer -/

namespace collector

open strconv

/-- The bit length of a number below a power of two. -/
theorem bitLen_le (fuel n k : Nat) (h : n < 2 ^ k) : bitLen fuel n ≤ k := by
  induction fuel generalizing n k with
  | zero => simp [bitLen]
  | succ fuel ih =>
    unfold bitLen
    split
    · omega
    · next h0 =>
      cases k with
      | zero => simp at h; omega
      | succ k =>
        have : n / 2 < 2 ^ k := by
          rw [pow_succ] at h
          omega
        have := ih (n / 2) k this
        omega

/-- Rounding leaves a natural number of at most 53 bits, and `2 ^ 53`, alone. -/
theorem roundToF64_of_le (n : Nat) (h : n ≤ 2 ^ 53) : roundToF64 n = n := by
  rcases Nat.lt_or_eq_of_le h with hlt | heq
  · have hk : bitLen 64 n - 53 = 0 := by
      have := bitLen_le 64 n 53 hlt
      omega
    simp [roundToF64, hk]
  · subst heq; decide

/-- The conversion `float64(n)` is exact for an integer of magnitude at most
`2 ^ 53`. -/
theorem float64OfInt_of_le (n : Int) (h : n.natAbs ≤ 2 ^ 53) :
    float64OfInt n = .finite n := by
  unfold float64OfInt
  rw [roundToF64_of_le _ h]
  split
  · next hneg =>
    congr 1
    rw [Nat.cast_natAbs, abs_of_neg hneg]; push_cast; ring
  · next hpos =>
    congr 1
    rw [Nat.cast_natAbs, abs_of_nonneg (by omega)]

/-- The conversion `float64(n)` is never an infinity. -/
theorem float64OfInt_isInf (n : Int) : (float64OfInt n).isInf = false := by
  unfold float64OfInt
  split <;> rfl

/-- The common prefix is no longer than the text. -/
theorem commonPrefixLen_le (s p : List Char) : commonPrefixLenIgnoreCase s p ≤ s.length := by
  induction s generalizing p with
  | nil => simp [commonPrefixLenIgnoreCase]
  | cons c s ih =>
    cases p with
    | nil => simp [commonPrefixLenIgnoreCase]
    | cons q rest =>
      simp only [commonPrefixLenIgnoreCase, List.length_cons]
      split
      · have := ih rest; omega
      · omega

/-- A text that is wholly a common prefix is, in lower case, the start of the
pattern. -/
theorem commonPrefixLen_eq_length (s p : List Char)
    (h : commonPrefixLenIgnoreCase s p = s.length) :
    s.map asciiLower = p.take s.length := by
  induction s generalizing p with
  | nil => simp
  | cons c s ih =>
    cases p with
    | nil => simp [commonPrefixLenIgnoreCase] at h
    | cons q rest =>
      simp only [commonPrefixLenIgnoreCase, List.length_cons] at h
      split at h
      · next hc =>
        have h1 : commonPrefixLenIgnoreCase s rest = s.length := by omega
        simp only [List.map_cons, List.length_cons, List.take_succ_cons, ih rest h1, hc]
      · omega

/-- The infinity branch of `special`, when it reads the whole text, read a
spelling of an infinity. -/
theorem specialInf_whole (neg : Bool) (nsign : Nat) (s : List Char) (f : F64)
    (h : specialInf neg nsign s = some (f, nsign + s.length)) :
    s.map asciiLower = "inf".data ∨ s.map asciiLower = "infinity".data := by
  unfold specialInf at h
  have hle := commonPrefixLen_le s "infinity".data
  have heq := commonPrefixLen_eq_length s "infinity".data
  generalize commonPrefixLenIgnoreCase s "infinity".data = n0 at h hle heq
  simp only at h
  split at h
  · next h38 =>
    simp only [true_or, if_true, Option.some.injEq, Prod.mk.injEq] at h
    omega
  · next h38 =>
    split at h
    · next hn =>
      simp only [Option.some.injEq, Prod.mk.injEq] at h
      have hlen : n0 = s.length := by omega
      have := heq hlen
      rcases hn with h3 | h8
      · left; rw [this, ← hlen, h3]; rfl
      · right; rw [this, ← hlen, h8]; rfl
    · simp at h

/-- When `special` reads the whole text as an infinity, the text is a spelling
of an infinity. -/
theorem special_inf_spelling (s : String) (f : F64)
    (h : special s.data = some (f, s.data.length)) (hinf : f.isInf = true) :
    isInfSpelling s := by
  cases hs : s.data with
  | nil => rw [hs] at h; simp [special] at h
  | cons c cs =>
    rw [hs] at h
    simp only [special, List.length_cons] at h
    split at h
    · next hc =>
      rw [Nat.add_comm] at h
      exact ⟨cs, Or.inr (Or.inl (by rw [hs, hc])), specialInf_whole _ _ _ _ h⟩
    · split at h
      · next hc =>
        rw [Nat.add_comm] at h
        exact ⟨cs, Or.inr (Or.inr (by rw [hs, hc])), specialInf_whole _ _ _ _ h⟩
      · split at h
        · have h2 : specialInf false 0 (c :: cs) = some (f, 0 + (c :: cs).length) := by
            simpa using h
          exact ⟨c :: cs, Or.inl hs, specialInf_whole _ _ _ _ h2⟩
        · split at h
          · split at h
            · simp only [Option.some.injEq, Prod.mk.injEq] at h
              rw [← h.1] at hinf
              simp [F64.isInf] at hinf
            · simp at h
          · simp at h

/-- A float read by `ParseFloat` is an infinity only for a spelling of an
infinity. -/
theorem ParseFloat_inf (L : GoLib) (s : String) (f : F64)
    (h : ParseFloat L s = .ok f) (hinf : f.isInf = true) : isInfSpelling s := by
  unfold ParseFloat at h
  split at h
  · next f1 n hsp =>
    split at h
    · simp at h
    · next hn =>
      simp only [Except.ok.injEq] at h
      subst h
      have hn1 : n = s.data.length := by
        by_contra hc; exact hn hc
      subst hn1
      exact special_inf_spelling s f1 hsp hinf
  · split at h
    · simp at h
    · split at h
      · simp at h
      · split at h
        · simp only [Except.ok.injEq] at h
          subst h
          simp [F64.isInf] at hinf
        · simp at h

/-- C3 (as stated, refuted): the string `T` is no floating-point literal and is
none of `true`, `false` and `<nil>`, and `sanitizeValue` returns 1.0 for it. -/
theorem C3_capital_T_accepted :
    (∀ L : GoLib, ParseFloat L "T" = .error ⟨"ParseFloat", "T", .syntax_⟩) ∧
    "T" ≠ "true" ∧ "T" ≠ "false" ∧ "T" ≠ "<nil>" ∧
    (∀ L : GoLib, sanitizeValue L (.string "T") = .ok (.finite 1)) := by
  refine ⟨fun _ => rfl, by decide, by decide, by decide, fun _ => rfl⟩

/-- C3 (amended): on a string, `sanitizeValue` returns the number `ParseFloat`
reads when it reads one; else 1.0 for a string `ParseBool` reads as true (`1`,
`t`, `T`, `true`, `TRUE`, `True`) and 0.0 for one it reads as false (`0`, `f`,
`F`, `false`, `FALSE`, `False`); else NaN for `<nil>`; every other string,
`blah` and the empty string among them, yields an error. -/
theorem C3_sanitize_string (L : GoLib) (s : String) :
    (∀ f, ParseFloat L s = .ok f → sanitizeValue L (.string s) = .ok f) ∧
    ((∃ e, ParseFloat L s = .error e) →
      (s ∈ trueLiterals → sanitizeValue L (.string s) = .ok (.finite 1)) ∧
      (s ∈ falseLiterals → sanitizeValue L (.string s) = .ok (.finite 0)) ∧
      (s = "<nil>" → sanitizeValue L (.string s) = .ok .nan) ∧
      (s ∉ trueLiterals → s ∉ falseLiterals → s ≠ "<nil>" →
        ∃ msg, sanitizeValue L (.string s) = .error msg)) ∧
    (∃ msg, sanitizeValue L (.string "blah") = .error msg) ∧
    (∃ msg, sanitizeValue L (.string "") = .error msg) := by
  refine ⟨?_, ?_, ⟨_, rfl⟩, ⟨_, rfl⟩⟩
  · intro f hf
    simp [sanitizeValue, hf]
  · rintro ⟨e, he⟩
    refine ⟨?_, ?_, ?_, ?_⟩
    · intro hs
      have hb : ParseBool s = .ok true := by
        simp only [trueLiterals, List.mem_cons, List.mem_singleton, List.mem_nil_iff,
          or_false] at hs
        simp only [ParseBool, hs, if_true]
      simp [sanitizeValue, he, hb]
    · intro hs
      have hb : ParseBool s = .ok false := by
        simp only [falseLiterals, List.mem_cons, List.mem_singleton, List.mem_nil_iff,
          or_false] at hs
        rcases hs with h | h | h | h | h | h <;> subst h <;> rfl
      simp [sanitizeValue, he, hb]
    · intro hs
      subst hs
      have hb : ParseBool "<nil>" = .error ⟨"ParseBool", "<nil>", .syntax_⟩ := rfl
      simp [sanitizeValue, he, hb]
    · intro ht hf hn
      have hb : ParseBool s = .error ⟨"ParseBool", s, .syntax_⟩ := by
        simp only [trueLiterals, List.mem_cons, List.mem_singleton, List.mem_nil_iff,
          or_false] at ht
        simp only [falseLiterals, List.mem_cons, List.mem_singleton, List.mem_nil_iff,
          or_false] at hf
        simp only [ParseBool, ht, hf, if_false]
      refine ⟨fmt.Errorf (fmt.SprintfError none ++ "; " ++ fmt.SprintfError none), ?_⟩
      simp [sanitizeValue, he, hb, hn]

/-- C4 (the code at the failing input): `ParseFloat` and `ParseBool` reject the
string `blah`, each with a reason that quotes it, and the message `sanitizeValue`
returns holds neither reason: it is the text of two nil errors, used as a
format, and it is the same for every string that `sanitizeValue` rejects. -/
theorem C4_message_without_reasons (L : GoLib) :
    (∃ e1 e2, ParseFloat L "blah" = .error e1 ∧ ParseBool "blah" = .error e2 ∧
      e1.Error L = "strconv.ParseFloat: parsing \"blah\": invalid syntax" ∧
      e2.Error L = "strconv.ParseBool: parsing \"blah\": invalid syntax") ∧
    sanitizeValue L (.string "blah") = .error "%!!(MISSING)s(<nil>); %!!(MISSING)s(<nil>)" ∧
    (∀ (s msg : String), sanitizeValue L (.string s) = .error msg →
      msg = "%!!(MISSING)s(<nil>); %!!(MISSING)s(<nil>)") := by
  refine ⟨⟨_, _, rfl, rfl, rfl, rfl⟩, rfl, ?_⟩
  intro s msg h
  simp only [sanitizeValue] at h
  cases hf : ParseFloat L s with
  | ok f => simp [hf] at h
  | error e =>
    cases hb : ParseBool s with
    | ok b =>
      cases b <;> simp [hf, hb] at h
    | error e2 =>
      by_cases hn : s = "<nil>"
      · simp only [hf, hb, hn, if_true] at h
        cases h
      · simp only [hf, hb, hn, if_false, Except.error.injEq] at h
        rw [← h]
        rfl

/-- C5 (as stated, refuted): an infinite float64 input, and the string
`-Infinity`, are returned as infinities without an error. -/
theorem C5_infinity_returned :
    (∀ L : GoLib, sanitizeValue L (.float .posInf) = .ok .posInf) ∧
    (∀ L : GoLib, sanitizeValue L (.string "-Infinity") = .ok .negInf) := by
  exact ⟨fun _ => rfl, fun _ => rfl⟩

/-- C5 (amended): a number `sanitizeValue` returns without error is finite or
NaN, except that an infinite float64 input is returned as it is and a string
spelling an infinity (optional sign, then `inf` or `infinity` in any letter case)
yields that infinity. -/
theorem C5_infinite_only_from_infinite (L : GoLib) (v : Value) (f : F64)
    (h : sanitizeValue L v = .ok f) (hinf : f.isInf = true) :
    v = .float f ∨ ∃ s, v = .string s ∧ isInfSpelling s := by
  cases v with
  | null => simp [sanitizeValue] at h; subst h; simp [F64.isInf] at hinf
  | bool b =>
    cases b <;> simp [sanitizeValue] at h <;> subst h <;> simp [F64.isInf] at hinf
  | int n =>
    simp only [sanitizeValue, Except.ok.injEq] at h
    subst h
    rw [float64OfInt_isInf] at hinf
    exact absurd hinf (by simp)
  | int64 n =>
    simp only [sanitizeValue, Except.ok.injEq] at h
    subst h
    rw [float64OfInt_isInf] at hinf
    exact absurd hinf (by simp)
  | float g =>
    simp only [sanitizeValue, Except.ok.injEq] at h
    subst h
    exact Or.inl rfl
  | string s =>
    right
    refine ⟨s, rfl, ?_⟩
    unfold sanitizeValue at h
    simp only at h
    split at h
    · next f1 hpf =>
      simp only [Except.ok.injEq] at h
      subst h
      exact ParseFloat_inf L s f1 hpf hinf
    · split at h
      · split at h <;> simp only [Except.ok.injEq] at h <;> subst h <;>
          simp [F64.isInf] at hinf
      · split at h
        · simp only [Except.ok.injEq] at h
          subst h
          simp [F64.isInf] at hinf
        · simp at h
  | other t r => simp [sanitizeValue] at h

/-- C5, at concrete inputs: the string `+INF` yields the positive infinity and is
a spelling of an infinity. -/
theorem C5_infinite_only_from_infinite_witness :
    sanitizeValue exampleLib (.string "+INF") = .ok .posInf ∧
    (Value.string "+INF" = .float .posInf ∨
      ∃ s, Value.string "+INF" = .string s ∧ isInfSpelling s) :=
  ⟨rfl, C5_infinite_only_from_infinite exampleLib (.string "+INF") .posInf rfl rfl⟩

/-- C6 (as stated, refuted): the int `2 ^ 53 + 1` is returned as the different
number `2 ^ 53`. -/
theorem C6_large_int_rounded :
    (∀ L : GoLib, sanitizeValue L (.int 9007199254740993)
      = .ok (.finite 9007199254740992)) ∧
    F64.finite 9007199254740992 ≠ F64.finite 9007199254740993 := by
  refine ⟨fun L => ?_, ?_⟩
  · have h : roundToF64 9007199254740993 = 9007199254740992 := by decide
    simp [sanitizeValue, float64OfInt, h]
  · intro h
    injection h with h
    norm_num at h

/-- C6 (amended): on a non-string input `sanitizeValue` returns without error
the float64 conversion of an `int` or `int64` (the same number whenever its
magnitude is at most `2 ^ 53`, negative numbers included, else the nearest
float64), a float64 input itself, 1.0 for true, 0.0 for false and NaN for nil;
an input of any other type yields an error naming the value and its type. -/
theorem C6_sanitize_non_string (L : GoLib) :
    (∀ n : Int, sanitizeValue L (.int n) = .ok (float64OfInt n) ∧
      sanitizeValue L (.int64 n) = .ok (float64OfInt n)) ∧
    (∀ n : Int, n.natAbs ≤ 2 ^ 53 →
      sanitizeValue L (.int n) = .ok (.finite n) ∧
      sanitizeValue L (.int64 n) = .ok (.finite n)) ∧
    (∀ f : F64, sanitizeValue L (.float f) = .ok f) ∧
    sanitizeValue L (.bool true) = .ok (.finite 1) ∧
    sanitizeValue L (.bool false) = .ok (.finite 0) ∧
    sanitizeValue L .null = .ok .nan ∧
    (∀ typeName repr : String, sanitizeValue L (.other typeName repr)
      = .error ("unknown value " ++ repr ++ " type \x27" ++ typeName ++ "\x27")) := by
  refine ⟨fun n => ⟨rfl, rfl⟩, fun n hn => ?_, fun _ => rfl, rfl, rfl, rfl, fun _ _ => rfl⟩
  simp [sanitizeValue, float64OfInt_of_le n hn]

end collector

/-! ## Properties of the extraction pipeline -/

namespace collector

/-- Every mutation `updateValue` makes is on the vector of its metric, and for
a counter or gauge there is exactly one. -/
theorem updateValue_length (jm : jsonMetric) (ls : Labels) (v : F64)
    (hty : jm.metricType = CounterMetric ∨ jm.metricType = GaugeMetric) :
    (updateValue jm ls v).length = 1 := by
  unfold updateValue
  rcases hty with h | h
  · simp [h]
  · rw [h]
    split
    · rfl
    · simp only [if_true]
      split <;> rfl

/-- The first value of a filter is the boolean false exactly when the filter
sequence starts with it. -/
theorem first_false_iff (code : Code) (input : Value) :
    extractFirstValue code input = .ok (.bool false) ↔
      ∃ rest, code input = .ok (.bool false) :: rest := by
  unfold extractFirstValue
  cases h : code input with
  | nil => simp
  | cons x rest =>
    cases x with
    | error e => simp
    | ok v => simp

/-- The three ways `collect` ends: the record is skipped, an error is returned
with no mutation, or nil is returned with the mutations of `updateValue` for the
sample of the record. -/
theorem collect_cases (L : GoLib) (jm : jsonMetric) (input : Value) :
    (extractFirstValue jm.filter input = .ok (.bool false) ∧
      collect L jm input = (none, []) ∧ sample L jm input = none) ∨
    (extractFirstValue jm.filter input ≠ .ok (.bool false) ∧
      (∃ e, collect L jm input = (some e, [])) ∧ sample L jm input = none) ∨
    (extractFirstValue jm.filter input ≠ .ok (.bool false) ∧
      ∃ ls v, collect L jm input = (none, updateValue jm ls v) ∧
        sample L jm input = some (ls, v)) := by
  unfold collect sample
  cases hfv : extractFirstValue jm.filter input with
  | error e => right; left; simp
  | ok fv =>
    by_cases hfalse : fv = .bool false
    · left; simp [hfalse]
    · right
      simp only [hfalse, if_false, ne_eq, Except.ok.injEq, not_false_eq_true, true_and]
      cases extractLabels L jm input with
      | error e => left; simp
      | ok ls =>
        cases extractFirstValue jm.value input with
        | error e => left; simp
        | ok x =>
          cases hs : sanitizeValue L x with
          | error e => left; simp [hs]
          | ok v => right; exact ⟨ls, v, by simp [hs], by simp [hs]⟩

/-- C7: for a counter or gauge metric and a candidate record whose filter
evaluates without error, `collect` skips the record (nil error, no registry
mutation) exactly when the first value the filter yields is the boolean false;
after any other first result, an empty result sequence and null included, the
record passes to label and value extraction: `collect` then returns an error or
makes exactly one registry mutation. -/
theorem C7_filter_false_skips (L : GoLib) (jm : jsonMetric) (input : Value)
    (hty : jm.metricType = CounterMetric ∨ jm.metricType = GaugeMetric)
    (hf : ∀ e rest, jm.filter input ≠ .error e :: rest) :
    (collect L jm input = (none, []) ↔
      ∃ rest, jm.filter input = .ok (.bool false) :: rest) ∧
    (jm.filter input = [] ∨ (∃ rest, jm.filter input = .ok .null :: rest) →
      collect L jm input ≠ (none, [])) ∧
    ((¬ ∃ rest, jm.filter input = .ok (.bool false) :: rest) →
      (∃ e, collect L jm input = (some e, [])) ∨
      (∃ ls v, collect L jm input = (none, updateValue jm ls v) ∧
        extractLabels L jm input = .ok ls ∧
        (∃ x, extractFirstValue jm.value input = .ok x ∧ sanitizeValue L x = .ok v) ∧
        (updateValue jm ls v).length = 1)) := by
  have hiff : collect L jm input = (none, []) ↔
      ∃ rest, jm.filter input = .ok (.bool false) :: rest := by
    rw [← first_false_iff]
    rcases collect_cases L jm input with ⟨h1, h2, _⟩ | ⟨h1, ⟨e, h2⟩, _⟩ | ⟨h1, ls, v, h2, _⟩
    · simp [h1, h2]
    · simp [h1, h2]
    · have hlen := updateValue_length jm ls v hty
      constructor
      · intro h
        rw [h2] at h
        simp only [Prod.mk.injEq, true_and] at h
        rw [h] at hlen
        simp at hlen
      · intro h; exact absurd h h1
  refine ⟨hiff, ?_, ?_⟩
  · intro h hskip
    obtain ⟨rest, hrest⟩ := hiff.mp hskip
    rcases h with h | ⟨r, h⟩
    · rw [h] at hrest; cases hrest
    · rw [h] at hrest; cases hrest
  · intro hno
    rw [← first_false_iff] at hno
    unfold collect
    cases hfv : extractFirstValue jm.filter input with
    | error e =>
      exfalso
      unfold extractFirstValue at hfv
      cases hfi : jm.filter input with
      | nil => simp [hfi] at hfv
      | cons x rest =>
        cases x with
        | error e1 => exact hf e1 rest hfi
        | ok v => simp [hfi] at hfv
    | ok fv =>
      have hne : fv ≠ .bool false := by
        intro h; rw [hfv, h] at hno; exact hno rfl
      simp only [hne, if_false]
      cases hl : extractLabels L jm input with
      | error e => left; simp
      | ok ls =>
        cases hx : extractFirstValue jm.value input with
        | error e => left; simp
        | ok x =>
          cases hs : sanitizeValue L x with
          | error e => left; simp [hs]
          | ok v =>
            right
            exact ⟨ls, v, by simp [hs], rfl, ⟨x, rfl, hs⟩, updateValue_length jm ls v hty⟩

/-- C7, at a concrete record: the example counter skips the record 5, for which
its filter yields false. -/
theorem C7_filter_false_skips_witness :
    collect exampleLib (exampleMetric "counter" "") (.int 5) = (none, []) :=
  (C7_filter_false_skips exampleLib (exampleMetric "counter" "") (.int 5)
    (Or.inl rfl) (by intro e rest h; cases h)).1.mpr ⟨[], rfl⟩

/-- C8: for a counter or gauge metric, `collect` makes exactly one registry
mutation when it returns nil on a record that passes the filter, and none when
it returns an error (from filter evaluation, label extraction, value extraction
or sanitization). -/
theorem C8_one_update_or_none (L : GoLib) (jm : jsonMetric) (input : Value)
    (hty : jm.metricType = CounterMetric ∨ jm.metricType = GaugeMetric) :
    (∀ e, (collect L jm input).1 = some e → (collect L jm input).2 = []) ∧
    ((collect L jm input).1 = none →
      (¬ ∃ rest, jm.filter input = .ok (.bool false) :: rest) →
      (collect L jm input).2.length = 1) := by
  rcases collect_cases L jm input with ⟨h1, h2, _⟩ | ⟨h1, ⟨e, h2⟩, _⟩ | ⟨h1, ls, v, h2, _⟩
  · refine ⟨fun e he => by rw [h2], fun _ hpass => ?_⟩
    exact absurd ((first_false_iff _ _).mp h1) hpass
  · refine ⟨fun e1 he => by rw [h2], fun hnil _ => ?_⟩
    rw [h2] at hnil
    simp at hnil
  · refine ⟨fun e he => ?_, fun _ _ => ?_⟩
    · rw [h2] at he; simp at he
    · rw [h2]; exact updateValue_length jm ls v hty

/-- C8, at concrete records: the example counter makes one mutation for the
record 3 and none for the string record `x`, on which sanitization fails. -/
theorem C8_one_update_or_none_witness :
    (collect exampleLib (exampleMetric "counter" "") (.int 3)).2.length = 1 ∧
    (collect exampleLib (exampleMetric "counter" "") (.string "x")).2 = [] :=
  ⟨(C8_one_update_or_none exampleLib (exampleMetric "counter" "") (.int 3) (Or.inl rfl)).2
      rfl (by rintro ⟨rest, h⟩; cases h),
   (C8_one_update_or_none exampleLib (exampleMetric "counter" "") (.string "x")
      (Or.inl rfl)).1 _ rfl⟩

end collector

/-! ## Properties of the series after a document -/

namespace collector

/-- The series `ls` of the metric `m` evolves by `stepAt` alone. -/
theorem applyUpdates_point (L : GoLib) (st : Store) (ups : List Update) (m : String)
    (ls : Labels) :
    applyUpdates L st ups m ls = ups.foldl (stepAt L m ls) (st m ls) := by
  induction ups generalizing st with
  | nil => rfl
  | cons u rest ih =>
    simp only [applyUpdates, List.foldl_cons] at ih ⊢
    rw [ih (applyUpdate L st u)]
    rfl

/-- Mutations on other metrics leave the series alone. -/
theorem foldl_stepAt_other (L : GoLib) (m : String) (ls : Labels) (ups : List Update)
    (h : ∀ u ∈ ups, u.metric ≠ m) (cur : Option F64) :
    ups.foldl (stepAt L m ls) cur = cur := by
  induction ups generalizing cur with
  | nil => rfl
  | cons u rest ih =>
    have hu : u.metric ≠ m := h u (List.mem_cons_self _ _)
    have hstep : stepAt L m ls cur u = cur := by
      unfold stepAt
      rw [if_neg]
      intro hc
      exact hu hc.1.symm
    rw [List.foldl_cons, hstep]
    exact ih (fun u1 h1 => h u1 (List.mem_cons_of_mem _ h1)) cur

/-- Every mutation of `updateValue` is on the vector of its metric. -/
theorem updateValue_metric (jm : jsonMetric) (ls : Labels) (v : F64) :
    ∀ u ∈ updateValue jm ls v, u.metric = jm.name := by
  intro u hu
  unfold updateValue at hu
  split at hu
  · simp only [List.mem_singleton] at hu; rw [hu]
  · split at hu
    · split at hu <;> (simp only [List.mem_singleton] at hu; rw [hu])
    · simp at hu

/-- Every mutation of `collect` is on the vector of its metric. -/
theorem collect_metric (L : GoLib) (jm : jsonMetric) (input : Value) :
    ∀ u ∈ (collect L jm input).2, u.metric = jm.name := by
  intro u hu
  rcases collect_cases L jm input with ⟨_, h2, _⟩ | ⟨_, ⟨e, h2⟩, _⟩ | ⟨_, ls, v, h2, _⟩
  · rw [h2] at hu; simp at hu
  · rw [h2] at hu; simp at hu
  · rw [h2] at hu; exact updateValue_metric jm ls v u hu

/-- Every mutation made for a metric is on the vector of that metric. -/
theorem processRecords_metric (L : GoLib) (jm : jsonMetric)
    (recs : List (Except String Value)) :
    ∀ u ∈ (processRecords L jm recs).2, u.metric = jm.name := by
  induction recs with
  | nil => intro u hu; simp [processRecords] at hu
  | cons r rest ih =>
    intro u hu
    cases r with
    | error e =>
      simp only [processRecords] at hu
      split at hu <;> simp at hu
    | ok v =>
      simp only [processRecords] at hu
      have hc := collect_metric L jm v
      split at hu
      · next e ups heq =>
        rw [heq] at hc
        exact hc u hu
      · next ups heq =>
        rw [heq] at hc
        simp only [List.mem_append] at hu
        rcases hu with h | h
        · exact hc u h
        · exact ih u h

/-- The mutations of `process` are those made for each metric, in declaration
order. -/
theorem process_log_from (L : GoLib) (input : Value) (ms : List jsonMetric)
    (acc : Bool × List Update) :
    (ms.foldl
      (fun acc metric =>
        let r := processRecords L metric (metric.path input)
        (acc.1 && r.1, acc.2 ++ r.2))
      acc).2
      = acc.2 ++ ms.flatMap (fun m => (processRecords L m (m.path input)).2) := by
  induction ms generalizing acc with
  | nil => simp
  | cons m rest ih =>
    rw [List.foldl_cons, ih]
    simp [List.append_assoc]

/-- The series of one metric after `process` depends on the mutations made for
that metric alone, metric names being distinct. -/
theorem process_point (L : GoLib) (jc : JSONCollector) (input : Value) (m : jsonMetric)
    (hnodup : (jc.metrics.map (fun x => x.name)).Nodup) (hm : m ∈ jc.metrics)
    (st : Store) (ls : Labels) :
    applyUpdates L st (process L jc input).2 m.name ls =
      (processRecords L m (m.path input)).2.foldl (stepAt L m.name ls) (st m.name ls) := by
  rw [applyUpdates_point]
  unfold process
  rw [process_log_from]
  simp only [List.nil_append]
  generalize st m.name ls = cur
  generalize jc.metrics = ms at hnodup hm
  induction ms generalizing cur with
  | nil => cases hm
  | cons m1 rest ih =>
    rw [List.flatMap_cons, List.foldl_append]
    simp only [List.map_cons, List.nodup_cons] at hnodup
    by_cases heq : m1 = m
    · subst heq
      apply foldl_stepAt_other
      intro u hu
      simp only [List.mem_flatMap] at hu
      obtain ⟨m2, hm2, hu2⟩ := hu
      rw [processRecords_metric L m2 _ u hu2]
      intro hname
      exact hnodup.1 (List.mem_map.mpr ⟨m2, hm2, hname⟩)
    · have hmem : m ∈ rest := by
        rcases List.mem_cons.mp hm with h | h
        · exact absurd h.symm heq
        · exact h
      have hne : m1.name ≠ m.name := by
        intro hname
        exact hnodup.1 (List.mem_map.mpr ⟨m, hmem, hname.symm⟩)
      rw [foldl_stepAt_other L m.name ls (processRecords L m1 (m1.path input)).2
        (fun u hu => by rw [processRecords_metric L m1 _ u hu]; exact hne)]
      exact ih cur hnodup.2 hmem

/-- Adding one more value in front. -/
theorem accumulated_cons (L : GoLib) (cur : Option F64) (x : F64) (xs : List F64) :
    accumulated L cur (x :: xs) = accumulated L (some (L.fadd (cur.getD (.finite 0)) x)) xs := by
  cases xs with
  | nil => rfl
  | cons y ys => rfl

/-- Setting one more value in front. -/
theorem lastSet_cons (cur : Option F64) (x : F64) (xs : List F64) :
    lastSet cur (x :: xs) = lastSet (some x) xs := by
  cases xs with
  | nil => rfl
  | cons y ys =>
    simp only [lastSet, List.getLast?_cons_cons]
    rw [List.getLast?_eq_getLast _ (List.cons_ne_nil y ys)]

/-- The values of the records carrying `ls`, for a result sequence. -/
theorem valuesOf_cons_ok (L : GoLib) (m : jsonMetric) (v : Value)
    (rest : List (Except String Value)) (ls : Labels) :
    ((((Except.ok v :: rest).filterMap (fun r =>
        match r with
        | .ok v => sample L m v
        | .error _ => none)).filter (fun p => decide (p.1 = ls))).map Prod.snd)
      = (match sample L m v with
         | some (ls1, x) => if ls1 = ls then [x] else []
         | none => [])
        ++ (((rest.filterMap (fun r =>
            match r with
            | .ok v => sample L m v
            | .error _ => none)).filter (fun p => decide (p.1 = ls))).map Prod.snd) := by
  cases hs : sample L m v with
  | none => simp [List.filterMap_cons, hs]
  | some p =>
    obtain ⟨ls1, x⟩ := p
    by_cases h : ls1 = ls
    · simp [List.filterMap_cons, hs, h]
    · simp [List.filterMap_cons, hs, h]

/-- The mutations made for the records of a sequence that all extract without
error hold those of each filter-passing record. -/
theorem processRecords_log_mem (L : GoLib) (m : jsonMetric)
    (recs : List (Except String Value))
    (hrec : ∀ r ∈ recs, ∃ v, r = .ok v ∧ (collect L m v).1 = none)
    (v : Value) (ls : Labels) (x : F64) (hv : .ok v ∈ recs)
    (hs : sample L m v = some (ls, x)) :
    ∀ u ∈ updateValue m ls x, u ∈ (processRecords L m recs).2 := by
  induction recs with
  | nil => cases hv
  | cons r rest ih =>
    obtain ⟨v1, hr, hnil⟩ := hrec r (List.mem_cons_self _ _)
    subst hr
    intro u hu
    have hlog : (processRecords L m (.ok v1 :: rest)).2 =
        (collect L m v1).2 ++ (processRecords L m rest).2 := by
      simp only [processRecords]
      cases hc : collect L m v1 with
      | mk err ups =>
        rw [hc] at hnil
        simp only at hnil
        subst hnil
        rfl
    rw [hlog, List.mem_append]
    rcases List.mem_cons.mp hv with h | h
    · left
      have hvv : v = v1 := by
        cases h
        rfl
      subst hvv
      rcases collect_cases L m v with ⟨_, _, h3⟩ | ⟨_, _, h3⟩ | ⟨_, ls1, x1, h2, h3⟩
      · rw [h3] at hs; cases hs
      · rw [h3] at hs; cases hs
      · rw [h3] at hs
        cases hs
        rw [h2]
        exact hu
    · right
      exact ih (fun r1 h1 => hrec r1 (List.mem_cons_of_mem _ h1)) h u hu

/-- The series of an adding metric after its records, none of the values added
to a counter being negative. -/
theorem processRecords_add (L : GoLib) (m : jsonMetric) (ls : Labels)
    (hkind : m.metricType = CounterMetric ∨
      (m.metricType = GaugeMetric ∧ m.operation = OperationAdd))
    (recs : List (Except String Value))
    (hrec : ∀ r ∈ recs, ∃ v, r = .ok v ∧ (collect L m v).1 = none)
    (hsign : m.metricType = CounterMetric → ∀ v ls1 x, .ok v ∈ recs →
      sample L m v = some (ls1, x) → x.isNegative = false)
    (cur : Option F64) :
    (processRecords L m recs).2.foldl (stepAt L m.name ls) cur =
      accumulated L cur
        (((recs.filterMap (fun r =>
            match r with
            | .ok v => sample L m v
            | .error _ => none)).filter (fun p => decide (p.1 = ls))).map Prod.snd) := by
  induction recs generalizing cur with
  | nil => rfl
  | cons r rest ih =>
    obtain ⟨v, hr, hnil⟩ := hrec r (List.mem_cons_self _ _)
    subst hr
    have ih1 := ih (fun r1 h1 => hrec r1 (List.mem_cons_of_mem _ h1))
      (fun hc v1 ls1 x1 h1 hs1 => hsign hc v1 ls1 x1 (List.mem_cons_of_mem _ h1) hs1)
    rw [valuesOf_cons_ok]
    rcases collect_cases L m v with ⟨_, h2, h3⟩ | ⟨_, ⟨e, h2⟩, _⟩ | ⟨_, ls1, x, h2, h3⟩
    · simp only [processRecords, h2, h3, List.nil_append]
      exact ih1 cur
    · rw [h2] at hnil; simp at hnil
    · simp only [processRecords, h2, h3, List.foldl_append]
      have hupd : ∃ op, ((op = VecOp.counterAdd ∧ x.isNegative = false) ∨ op = VecOp.gaugeAdd) ∧
          updateValue m ls1 x = [⟨m.name, op, ls1, x⟩] := by
        unfold updateValue
        rcases hkind with h | ⟨h, ho⟩
        · exact ⟨.counterAdd,
            Or.inl ⟨rfl, hsign h v ls1 x (List.mem_cons_self _ _) h3⟩, by simp [h]⟩
        · refine ⟨.gaugeAdd, Or.inr rfl, ?_⟩
          have hne : GaugeMetric ≠ CounterMetric := by decide
          simp [h, ho, hne]
      obtain ⟨op, hop, hupd⟩ := hupd
      rw [hupd, List.foldl_cons, List.foldl_nil, ih1]
      by_cases hls : ls1 = ls
      · subst hls
        have hstep : stepAt L m.name ls1 cur ⟨m.name, op, ls1, x⟩
            = some (L.fadd (cur.getD (.finite 0)) x) := by
          rcases hop with ⟨h, hx⟩ | h <;> subst h <;> simp [stepAt, bump, *]
        simp only [hstep, if_true, List.singleton_append]
        rw [accumulated_cons]
      · have hstep : stepAt L m.name ls cur ⟨m.name, op, ls1, x⟩ = cur := by
          unfold stepAt
          rw [if_neg]
          intro hc
          exact hls hc.2.symm
        simp only [hstep, hls, if_false, List.nil_append]

/-- The series of a setting gauge after its records. -/
theorem processRecords_set (L : GoLib) (m : jsonMetric) (ls : Labels)
    (hkind : m.metricType = GaugeMetric ∧ m.operation ≠ OperationAdd)
    (recs : List (Except String Value))
    (hrec : ∀ r ∈ recs, ∃ v, r = .ok v ∧ (collect L m v).1 = none)
    (cur : Option F64) :
    (processRecords L m recs).2.foldl (stepAt L m.name ls) cur =
      lastSet cur
        (((recs.filterMap (fun r =>
            match r with
            | .ok v => sample L m v
            | .error _ => none)).filter (fun p => decide (p.1 = ls))).map Prod.snd) := by
  induction recs generalizing cur with
  | nil => rfl
  | cons r rest ih =>
    obtain ⟨v, hr, hnil⟩ := hrec r (List.mem_cons_self _ _)
    subst hr
    have ih1 := ih (fun r1 h1 => hrec r1 (List.mem_cons_of_mem _ h1))
    rw [valuesOf_cons_ok]
    rcases collect_cases L m v with ⟨_, h2, h3⟩ | ⟨_, ⟨e, h2⟩, _⟩ | ⟨_, ls1, x, h2, h3⟩
    · simp only [processRecords, h2, h3, List.nil_append]
      exact ih1 cur
    · rw [h2] at hnil; simp at hnil
    · simp only [processRecords, h2, h3, List.foldl_append]
      have hupd : updateValue m ls1 x = [⟨m.name, .gaugeSet, ls1, x⟩] := by
        unfold updateValue
        have hne : GaugeMetric ≠ CounterMetric := by decide
        simp [hkind.1, hkind.2, hne]
      rw [hupd, List.foldl_cons, List.foldl_nil, ih1]
      by_cases hls : ls1 = ls
      · subst hls
        have hstep : stepAt L m.name ls1 cur ⟨m.name, .gaugeSet, ls1, x⟩ = some x := by
          simp [stepAt, bump]
        simp only [hstep, if_true, List.singleton_append]
        rw [lastSet_cons]
      · have hstep : stepAt L m.name ls cur ⟨m.name, .gaugeSet, ls1, x⟩ = cur := by
          unfold stepAt
          rw [if_neg]
          intro hc
          exact hls hc.2.symm
        simp only [hstep, hls, if_false, List.nil_append]

/-- C9 (as stated, refuted): every record of the counter `negativeCounter`
extracts without error, and the sanitized values of its records are 1, -1 and 5;
the second registry mutation of `process` panics, so the series does not get
their sum: it holds 1 when the execution ends. -/
theorem C9_negative_counter_panics :
    (∀ r ∈ negativeCounter.path .null,
      ∃ v, r = .ok v ∧ (collect exampleLib negativeCounter v).1 = none) ∧
    valuesFor exampleLib negativeCounter .null [] = [.finite 1, .finite (-1), .finite 5] ∧
    processPanics exampleLib ⟨"c", [negativeCounter]⟩ .null = true ∧
    (process exampleLib ⟨"c", [negativeCounter]⟩ .null).2.map Update.panics
      = [false, true, false] ∧
    applyUpdates exampleLib (fun _ _ => none)
      ((process exampleLib ⟨"c", [negativeCounter]⟩ .null).2.take 2) "value" []
      = some (.finite 1) := by
  have hlog : (process exampleLib ⟨"c", [negativeCounter]⟩ .null).2 =
      [⟨"value", .counterAdd, [], .finite 1⟩, ⟨"value", .counterAdd, [], .finite (-1)⟩,
        ⟨"value", .counterAdd, [], .finite 5⟩] := rfl
  refine ⟨?_, rfl, ?_, ?_, ?_⟩
  · intro r hr
    simp only [negativeCounter, List.mem_cons, List.mem_singleton, List.mem_nil_iff,
      or_false] at hr
    rcases hr with h | h | h <;> subst h <;> exact ⟨_, rfl, rfl⟩
  · unfold processPanics
    rw [hlog]
    simp [Update.panics, F64.isNegative]
  · rw [hlog]
    simp [Update.panics, F64.isNegative]
  · rw [hlog]
    simp only [List.take, applyUpdates, List.foldl_cons, List.foldl_nil, applyUpdate, stepAt,
      bump, F64.isNegative, exampleLib]
    norm_num

/-- C9 (amended): for a counter metric, and for a gauge metric in add mode, of a
collector whose metric names are distinct, after `process` on a document whose
candidate records for the metric all extract without error and on which no
registry mutation panics (no counter of the collector is given a negative value),
the series of each label combination is its previous value (zero for a new
series) increased, in sequence order, by the sanitized values of the
filter-passing records that carry that combination; a combination no
filter-passing record carries keeps its series as it was, so none is created for
it. -/
theorem C9_add_accumulates (L : GoLib) (jc : JSONCollector) (input : Value)
    (m : jsonMetric)
    (hnodup : (jc.metrics.map (fun x => x.name)).Nodup) (hm : m ∈ jc.metrics)
    (hkind : m.metricType = CounterMetric ∨
      (m.metricType = GaugeMetric ∧ m.operation = OperationAdd))
    (hrec : ∀ r ∈ m.path input, ∃ v, r = .ok v ∧ (collect L m v).1 = none)
    (hsafe : processPanics L jc input = false)
    (st : Store) (ls : Labels) :
    applyUpdates L st (process L jc input).2 m.name ls =
      (match valuesFor L m input ls with
       | [] => st m.name ls
       | x :: xs => some ((x :: xs).foldl L.fadd ((st m.name ls).getD (.finite 0)))) ∧
    (valuesFor L m input ls = [] → st m.name ls = none →
      applyUpdates L st (process L jc input).2 m.name ls = none) := by
  have hsign : m.metricType = CounterMetric → ∀ v ls1 x, .ok v ∈ m.path input →
      sample L m v = some (ls1, x) → x.isNegative = false := by
    intro hc v ls1 x hv hs
    have hu : (⟨m.name, .counterAdd, ls1, x⟩ : Update) ∈ (process L jc input).2 := by
      unfold process
      rw [process_log_from]
      simp only [List.nil_append, List.mem_flatMap]
      refine ⟨m, hm, processRecords_log_mem L m _ hrec v ls1 x hv hs _ ?_⟩
      simp [updateValue, hc]
    unfold processPanics at hsafe
    rw [List.any_eq_false] at hsafe
    have h := hsafe _ hu
    simpa [Update.panics] using h
  have key : applyUpdates L st (process L jc input).2 m.name ls =
      accumulated L (st m.name ls) (valuesFor L m input ls) := by
    rw [process_point L jc input m hnodup hm, processRecords_add L m ls hkind _ hrec hsign]
    rfl
  refine ⟨key, fun hv hst => ?_⟩
  rw [key, hv, hst]
  rfl

/-- C9, on the repository test: the counter, and the gauge in add mode, end with
7 for `id=C` (records 3 and 4), and with no series for `id=B`, carried only by
the filtered-out record 5. -/
theorem C9_add_accumulates_witness :
    applyUpdates exampleLib (fun _ _ => none)
      (process exampleLib ⟨"c", [exampleMetric "counter" ""]⟩ .null).2
      "value" [("id", "C")] = some (.finite 7) ∧
    applyUpdates exampleLib (fun _ _ => none)
      (process exampleLib ⟨"c", [exampleMetric "gauge" "add"]⟩ .null).2
      "value" [("id", "B")] = none := by
  have hrec : ∀ (ty op : String),
      ∀ r ∈ (exampleMetric ty op).path .null,
        ∃ v, r = .ok v ∧ (collect exampleLib (exampleMetric ty op) v).1 = none := by
    intro ty op r hr
    simp only [exampleMetric, List.mem_cons, List.mem_singleton, List.mem_nil_iff,
      or_false] at hr
    rcases hr with h | h | h | h <;> subst h <;> exact ⟨_, rfl, rfl⟩
  have hsafe1 : processPanics exampleLib ⟨"c", [exampleMetric "counter" ""]⟩ .null = false := by
    have hlog : (process exampleLib ⟨"c", [exampleMetric "counter" ""]⟩ .null).2 =
        [⟨"value", .counterAdd, [("id", "A")], float64OfInt 2⟩,
          ⟨"value", .counterAdd, [("id", "C")], float64OfInt 3⟩,
          ⟨"value", .counterAdd, [("id", "C")], float64OfInt 4⟩] := rfl
    have h2 : float64OfInt 2 = .finite 2 := by decide
    have h3 : float64OfInt 3 = .finite 3 := by decide
    have h4 : float64OfInt 4 = .finite 4 := by decide
    unfold processPanics
    rw [hlog, h2, h3, h4]
    simp [Update.panics, F64.isNegative]
  have hsafe2 : processPanics exampleLib ⟨"c", [exampleMetric "gauge" "add"]⟩ .null = false := by
    have hlog : (process exampleLib ⟨"c", [exampleMetric "gauge" "add"]⟩ .null).2 =
        [⟨"value", .gaugeAdd, [("id", "A")], float64OfInt 2⟩,
          ⟨"value", .gaugeAdd, [("id", "C")], float64OfInt 3⟩,
          ⟨"value", .gaugeAdd, [("id", "C")], float64OfInt 4⟩] := rfl
    unfold processPanics
    rw [hlog]
    simp [Update.panics]
  constructor
  · have h := (C9_add_accumulates exampleLib ⟨"c", [exampleMetric "counter" ""]⟩ .null
      (exampleMetric "counter" "") (by simp) (by simp) (Or.inl rfl) (hrec _ _) hsafe1
      (fun _ _ => none) [("id", "C")]).1
    have hv : valuesFor exampleLib (exampleMetric "counter" "") .null [("id", "C")]
        = [.finite 3, .finite 4] := by decide
    rw [hv] at h
    rw [show (exampleMetric "counter" "").name = "value" from rfl] at h
    rw [h]
    simp only [List.foldl_cons, List.foldl_nil, exampleLib, Option.getD_none]
    norm_num
  · have h := (C9_add_accumulates exampleLib ⟨"c", [exampleMetric "gauge" "add"]⟩ .null
      (exampleMetric "gauge" "add") (by simp) (by simp) (Or.inr ⟨rfl, rfl⟩) (hrec _ _) hsafe2
      (fun _ _ => none) [("id", "B")]).2
    exact h (by decide) rfl

/-- C10: for a gauge metric whose operation is not `add` (set, or left
unspecified), of a collector whose metric names are distinct, after `process` on
a document whose candidate records for the metric all extract without error, the
series of each label combination holds the sanitized value of the last
filter-passing record, in sequence order, that carries that combination; a
combination no filter-passing record carries keeps its series as it was. -/
theorem C10_set_last_wins (L : GoLib) (jc : JSONCollector) (input : Value)
    (m : jsonMetric)
    (hnodup : (jc.metrics.map (fun x => x.name)).Nodup) (hm : m ∈ jc.metrics)
    (hkind : m.metricType = GaugeMetric ∧ m.operation ≠ OperationAdd)
    (hrec : ∀ r ∈ m.path input, ∃ v, r = .ok v ∧ (collect L m v).1 = none)
    (st : Store) (ls : Labels) :
    applyUpdates L st (process L jc input).2 m.name ls =
      match (valuesFor L m input ls).getLast? with
      | none => st m.name ls
      | some x => some x := by
  rw [process_point L jc input m hnodup hm, processRecords_set L m ls hkind _ hrec]
  rfl

/-- C10, on the repository test: the gauge with no operation ends with 4 for
`id=C`, the value of the last of the records 3 and 4. -/
theorem C10_set_last_wins_witness :
    applyUpdates exampleLib (fun _ _ => none)
      (process exampleLib ⟨"c", [exampleMetric "gauge" ""]⟩ .null).2
      "value" [("id", "C")] = some (.finite 4) := by
  have hrec : ∀ r ∈ (exampleMetric "gauge" "").path .null,
      ∃ v, r = .ok v ∧ (collect exampleLib (exampleMetric "gauge" "") v).1 = none := by
    intro r hr
    simp only [exampleMetric, List.mem_cons, List.mem_singleton, List.mem_nil_iff,
      or_false] at hr
    rcases hr with h | h | h | h <;> subst h <;> exact ⟨_, rfl, rfl⟩
  have h := C10_set_last_wins exampleLib ⟨"c", [exampleMetric "gauge" ""]⟩ .null
    (exampleMetric "gauge" "") (by simp) (by simp) ⟨rfl, by decide⟩ hrec
    (fun _ _ => none) [("id", "C")]
  have hv : valuesFor exampleLib (exampleMetric "gauge" "") .null [("id", "C")]
      = [.finite 3, .finite 4] := by decide
  rw [hv] at h
  exact h

end collector

/-! ## Properties of the collection engine -/

namespace collector

/-- The flag of one metric is true exactly when no consumed result is a
failure. -/
theorem processRecords_flag (L : GoLib) (m : jsonMetric)
    (recs : List (Except String Value)) :
    (processRecords L m recs).1 = true ↔
      ∀ r ∈ consumed L m recs, ¬ isFailure L m r := by
  induction recs with
  | nil => simp [processRecords, consumed]
  | cons r rest ih =>
    cases r with
    | error e =>
      by_cases he : e = "cannot iterate over: null"
      · simp [processRecords, consumed, isFailure, he]
      · simp [processRecords, consumed, isFailure, he]
    | ok v =>
      cases hc : collect L m v with
      | mk err ups =>
        cases err with
        | none =>
          simp only [processRecords, hc, consumed, if_true, List.mem_cons, forall_eq_or_imp,
            isFailure, ne_eq, not_true_eq_false, not_false_eq_true, true_and]
          exact ih
        | some e =>
          simp [processRecords, hc, consumed, isFailure]

/-- The flag and the mutations of `process` from an intermediate state of its
loop. -/
theorem process_from (L : GoLib) (input : Value) (ms : List jsonMetric)
    (acc : Bool × List Update) :
    ms.foldl
      (fun acc metric =>
        let r := processRecords L metric (metric.path input)
        (acc.1 && r.1, acc.2 ++ r.2))
      acc
      = (acc.1 && ms.all (fun m => (processRecords L m (m.path input)).1),
         acc.2 ++ ms.flatMap (fun m => (processRecords L m (m.path input)).2)) := by
  induction ms generalizing acc with
  | nil => simp
  | cons m rest ih =>
    rw [List.foldl_cons, ih]
    simp [List.append_assoc, Bool.and_assoc]

/-- C11: `process` returns true exactly when, for every metric, the results
consumed from its path sequence hold neither a path evaluation error other than
`cannot iterate over: null` nor a record on which `collect` returns an error; in
particular it returns true when every path sequence holds only records (or
nothing) and each record is filtered out. -/
theorem C11_process_flag (L : GoLib) (jc : JSONCollector) (input : Value) :
    ((process L jc input).1 = true ↔
      ∀ m ∈ jc.metrics, ∀ r ∈ consumed L m (m.path input), ¬ isFailure L m r) ∧
    ((∀ m ∈ jc.metrics, ∀ r ∈ m.path input,
        ∃ v, r = .ok v ∧ extractFirstValue m.filter v = .ok (.bool false)) →
      (process L jc input).1 = true) := by
  have key : (process L jc input).1 = true ↔
      ∀ m ∈ jc.metrics, ∀ r ∈ consumed L m (m.path input), ¬ isFailure L m r := by
    unfold process
    rw [process_from]
    simp only [Bool.true_and, List.all_eq_true]
    constructor
    · intro h m hm
      exact (processRecords_flag L m _).mp (h m hm)
    · intro h m hm
      exact (processRecords_flag L m _).mpr (h m hm)
  refine ⟨key, fun hall => key.mpr ?_⟩
  intro m hm
  have hm1 := hall m hm
  generalize m.path input = recs at hm1
  induction recs with
  | nil => intro r hr; simp [consumed] at hr
  | cons r rest ih =>
    obtain ⟨v, hv, hfalse⟩ := hm1 r (List.mem_cons_self _ _)
    subst hv
    have hskip : collect L m v = (none, []) := by
      simp [collect, hfalse]
    intro r1 hr1
    simp only [consumed, hskip, if_true, List.mem_cons] at hr1
    rcases hr1 with h | h
    · subst h
      simp [isFailure, hskip]
    · exact ih (fun r2 h2 => hm1 r2 (List.mem_cons_of_mem _ h2)) r1 h

/-- C12: when the path sequence of every metric starts with the null-iteration
error, `process` returns true and makes no registry mutation, so the series are
as they were. -/
theorem C12_null_path_is_success (L : GoLib) (jc : JSONCollector) (input : Value)
    (h : ∀ m ∈ jc.metrics, ∃ rest, m.path input = .error "cannot iterate over: null" :: rest) :
    process L jc input = (true, []) ∧
    ∀ st : Store, applyUpdates L st (process L jc input).2 = st := by
  have key : process L jc input = (true, []) := by
    unfold process
    rw [process_from]
    have h1 : ∀ m ∈ jc.metrics, processRecords L m (m.path input) = (true, []) := by
      intro m hm
      obtain ⟨rest, hrest⟩ := h m hm
      rw [hrest]
      simp [processRecords]
    have hall : jc.metrics.all (fun m => (processRecords L m (m.path input)).1) = true := by
      rw [List.all_eq_true]
      intro m hm
      rw [h1 m hm]
    have hlog : jc.metrics.flatMap (fun m => (processRecords L m (m.path input)).2) = [] := by
      rw [List.flatMap_eq_nil_iff]
      intro m hm
      rw [h1 m hm]
    rw [hall, hlog]
    rfl
  refine ⟨key, fun st => ?_⟩
  rw [key]
  rfl

/-- C12, on the repository test `empty-data`: the collector of the one metric
whose path is missing from the document returns true and updates nothing. -/
theorem C12_null_path_is_success_witness :
    process exampleLib ⟨"test", [missingPathMetric]⟩ .null = (true, []) :=
  (C12_null_path_is_success exampleLib ⟨"test", [missingPathMetric]⟩ .null
    (by
      intro m hm
      simp only [List.mem_singleton] at hm
      subst hm
      exact ⟨[], rfl⟩)).1

/-- C13: `process` handles every metric in declaration order by itself: its flag
is the conjunction, and its registry mutations the concatenation, of what the
loop over the path sequence gives for each metric alone, so the metrics that
follow a failed one are processed as after a successful one. -/
theorem C13_metrics_independent (L : GoLib) (jc : JSONCollector) (input : Value) :
    process L jc input =
      (jc.metrics.all (fun m => (processRecords L m (m.path input)).1),
       jc.metrics.flatMap (fun m => (processRecords L m (m.path input)).2)) ∧
    (∀ (earlier later : List jsonMetric), jc.metrics = earlier ++ later →
      (process L jc input).2 =
        (process L ⟨jc.id, earlier⟩ input).2 ++ (process L ⟨jc.id, later⟩ input).2) := by
  have key : ∀ ms : List jsonMetric, ∀ id : String, process L ⟨id, ms⟩ input =
      (ms.all (fun m => (processRecords L m (m.path input)).1),
       ms.flatMap (fun m => (processRecords L m (m.path input)).2)) := by
    intro ms id
    unfold process
    rw [process_from]
    simp
  refine ⟨key jc.metrics jc.id, ?_⟩
  intro earlier later hsplit
  rw [key jc.metrics jc.id, key earlier jc.id, key later jc.id, hsplit]
  simp [List.flatMap_append]

end collector

/-! ## Properties of the ingestion dispatcher -/

namespace webhook

/-- What a constructed handler keeps of the webhook definition, and its
response code. -/
theorem webHookHandler_fields (G : Gojq) (wh : WebHook)
    (inputs : List (String × Option Chan)) (h : WebHookHandler)
    (hh : webHookHandler G wh inputs = .ok h) :
    h.WebHook.id = wh.id ∧ h.WebHook.Method = wh.Method ∧
    h.WebHook.AuthHeaders = wh.AuthHeaders ∧
    h.WebHook.Response.Code = (if wh.Response.Code = 0 then 200 else wh.Response.Code) := by
  unfold webHookHandler at hh
  split at hh
  · simp at hh
  · simp only [Except.ok.injEq] at hh
    subst hh
    exact ⟨rfl, rfl, rfl, rfl⟩

/-- C14 (as stated, refuted): a handler is constructed for a webhook one of
whose bindings names a collector without a queue; a request with the right
method, no auth header to check and a body that decodes is never answered: no
status code is written. -/
theorem C14_no_status_when_blocked :
    ∃ h, webHookHandler exampleJq (exampleHook "." ["example", "ghost"])
        [("example", some 0)] = .ok h ∧
      (ServeHTTP exampleLib h ⟨"POST", [], "null"⟩).status = none ∧
      (ServeHTTP exampleLib h ⟨"POST", [], "null"⟩).ending = .blocked :=
  ⟨_, rfl, rfl, rfl⟩

/-- C14 (amended): for a handler constructed by `webHookHandler`, `ServeHTTP`
writes 400 when the request method differs from the configured method, whatever
the headers and body; otherwise 401 when the auth header check fails; otherwise
400 when the body fails to decode; otherwise, provided every collector binding
has a compiled transform and a queue, the configured response code, 200 standing
for a code that is not configured, when that code is a number from 100 to 999,
and no status code at all when it is not: `WriteHeader` then panics. -/
theorem C14_status_code (L : GoLib) (G : Gojq) (wh : WebHook)
    (inputs : List (String × Option Chan)) (h : WebHookHandler) (r : Request)
    (hh : webHookHandler G wh inputs = .ok h) :
    (r.Method ≠ wh.Method → (ServeHTTP L h r).status = some 400) ∧
    (r.Method = wh.Method → isAuthHeadersMatching L r.Header wh.AuthHeaders = false →
      (ServeHTTP L h r).status = some 401) ∧
    (r.Method = wh.Method → isAuthHeadersMatching L r.Header wh.AuthHeaders = true →
      (∃ e, L.jsonDecode r.Body = .error e) → (ServeHTTP L h r).status = some 400) ∧
    (r.Method = wh.Method → isAuthHeadersMatching L r.Header wh.AuthHeaders = true →
      (∃ payload, L.jsonDecode r.Body = .ok payload) →
      (∀ c ∈ h.WebHook.Collectors, ∃ code ch,
        c.transformCode = some code ∧ (List.lookup c.ID h.collectors).join = some ch) →
      (wh.Response.Code = 0 → (ServeHTTP L h r).status = some 200) ∧
      (100 ≤ wh.Response.Code → wh.Response.Code ≤ 999 →
        (ServeHTTP L h r).status = some wh.Response.Code) ∧
      (wh.Response.Code ≠ 0 → (wh.Response.Code < 100 ∨ 999 < wh.Response.Code) →
        (ServeHTTP L h r).status = none ∧ (ServeHTTP L h r).ending = .panicked)) := by
  obtain ⟨_, hmeth, hauth, hcode⟩ := webHookHandler_fields G wh inputs h hh
  refine ⟨?_, ?_, ?_, ?_⟩
  · intro hm
    simp [ServeHTTP, hmeth, hm]
  · intro hm ha
    simp [ServeHTTP, hmeth, hauth, hm, ha]
  · rintro hm ha ⟨e, he⟩
    simp [ServeHTTP, hmeth, hauth, hm, ha, he]
  · rintro hm ha ⟨payload, hp⟩ hc
    unfold ServeHTTP
    simp only [hmeth, hauth, hm, ne_eq, not_true_eq_false, if_false, ha, Bool.not_true, hp,
      runTransforms_sent h payload _ hc, hcode]
    refine ⟨?_, ?_, ?_⟩
    · intro h0
      simp [h0, http.checkWriteHeaderCode]
    · intro hlo hhi
      have hne : wh.Response.Code ≠ 0 := by omega
      have hok : http.checkWriteHeaderCode wh.Response.Code = true := by
        simp only [http.checkWriteHeaderCode, Bool.not_eq_true', Bool.or_eq_false_iff,
          decide_eq_false_iff_not]
        omega
      simp [hne, hok]
    · intro hne hout
      have hbad : http.checkWriteHeaderCode wh.Response.Code = false := by
        simp only [http.checkWriteHeaderCode, Bool.not_eq_false', Bool.or_eq_true,
          decide_eq_true_eq]
        omega
      simp [hne, hbad]

/-- C14, at a concrete handler: with its one binding bound to a queue, the
handler constructed from a webhook with no response code answers 200. -/
theorem C14_status_code_witness :
    ∃ h, webHookHandler exampleJq (exampleHook "." ["example"]) [("example", some 0)] = .ok h ∧
      (ServeHTTP exampleLib h ⟨"POST", [], "null"⟩).status = some 200 := by
  refine ⟨_, rfl, ?_⟩
  have h4 := (C14_status_code exampleLib exampleJq (exampleHook "." ["example"])
    [("example", some 0)] _ ⟨"POST", [], "null"⟩ rfl).2.2.2
  exact (h4 rfl rfl ⟨.null, rfl⟩ (by
    intro c hc
    simp only [exampleHook, List.map_cons, List.map_nil] at hc
    refine ⟨fun v => [.ok v], 0, ?_, ?_⟩
    · revert c
      intro c hc
      have : c ∈ [(⟨"example", ".", some (fun v => [.ok v])⟩ : Collector)] := hc
      simp only [List.mem_singleton] at this
      subst this
      rfl
    · have : c ∈ [(⟨"example", ".", some (fun v => [.ok v])⟩ : Collector)] := hc
      simp only [List.mem_singleton] at this
      subst this
      rfl)).1 rfl

/-- C17: an execution of `ServeHTTP` that writes a status code increments the
request counter exactly once, with the webhook id and the decimal string of that
status code as label values; an execution that writes none does not increment
it. -/
theorem C17_one_increment_per_response (L : GoLib) (h : WebHookHandler) (r : Request) :
    (∀ code, (ServeHTTP L h r).status = some code →
      (ServeHTTP L h r).requests = [(h.WebHook.id, Itoa code)]) ∧
    ((ServeHTTP L h r).status = none → (ServeHTTP L h r).requests = []) := by
  have h400 : Itoa 400 = "400" := by decide
  have h401 : Itoa 401 = "401" := by decide
  unfold ServeHTTP
  split
  · simp [h400]
  · split
    · simp [h401]
    · split
      · simp [h400]
      · split
        · split <;> simp
        · simp

end webhook

/-! ## Properties of the forwarded documents -/

namespace webhook

/-- A sequence without error element is forwarded whole. -/
theorem okPrefix_of_no_error (ch : Chan) (xs : List (Except String Value))
    (h : ∀ x ∈ xs, ∃ v, x = .ok v) :
    (okPrefix xs).map (fun v => (ch, v)) =
      xs.filterMap (fun x =>
        match x with
        | .ok v => some (ch, v)
        | .error _ => none) := by
  induction xs with
  | nil => rfl
  | cons x rest ih =>
    obtain ⟨v, hv⟩ := h x (List.mem_cons_self _ _)
    subst hv
    simp only [okPrefix, List.map_cons, List.filterMap_cons]
    rw [ih (fun x1 h1 => h x1 (List.mem_cons_of_mem _ h1))]

/-- C15 (as stated, refuted): the handler constructed for two bindings, of which
the second names a collector without a queue, accepts a request; each transform
yields the payload and no error, and only the first binding's document is sent. -/
theorem C15_document_without_queue_not_sent :
    ∃ h, webHookHandler exampleJq (exampleHook "." ["example", "ghost"])
        [("example", some 0)] = .ok h ∧
      h.WebHook.Collectors.map (fun c => (c.ID, c.transformCode.map (fun code => code .null)))
        = [("example", some [.ok .null]), ("ghost", some [.ok .null])] ∧
      (ServeHTTP exampleLib h ⟨"POST", [], "null"⟩).sent = [(0, .null)] :=
  ⟨_, rfl, rfl, rfl⟩

/-- C15 (amended): `ServeHTTP` sends no document when the request is rejected
(wrong method, failed header check, body that does not decode); otherwise,
provided every collector binding has a compiled transform and a queue, and no
transform sequence holds an error element, it sends exactly the elements of each
binding's transform output over the decoded payload, in binding order and then
sequence order, each to the queue of the binding's collector id. -/
theorem C15_documents_sent (L : GoLib) (wh : WebHookHandler) (r : Request) :
    (r.Method ≠ wh.WebHook.Method → (ServeHTTP L wh r).sent = []) ∧
    (isAuthHeadersMatching L r.Header wh.WebHook.AuthHeaders = false →
      (ServeHTTP L wh r).sent = []) ∧
    ((∃ e, L.jsonDecode r.Body = .error e) → (ServeHTTP L wh r).sent = []) ∧
    (r.Method = wh.WebHook.Method →
      isAuthHeadersMatching L r.Header wh.WebHook.AuthHeaders = true →
      ∀ payload, L.jsonDecode r.Body = .ok payload →
      (∀ c ∈ wh.WebHook.Collectors, ∃ code ch,
        c.transformCode = some code ∧ (List.lookup c.ID wh.collectors).join = some ch
          ∧ ∀ x ∈ code payload, ∃ v, x = .ok v) →
      (ServeHTTP L wh r).sent =
        wh.WebHook.Collectors.flatMap (fun c =>
          match c.transformCode, (List.lookup c.ID wh.collectors).join with
          | some code, some ch =>
            (code payload).filterMap (fun x =>
              match x with
              | .ok v => some (ch, v)
              | .error _ => none)
          | _, _ => [])) := by
  refine ⟨?_, ?_, ?_, ?_⟩
  · intro hm
    simp [ServeHTTP, hm]
  · intro ha
    unfold ServeHTTP
    split
    · rfl
    · simp [ha]
  · rintro ⟨e, he⟩
    unfold ServeHTTP
    split
    · rfl
    · split
      · rfl
      · simp [he]
  · intro hm ha payload hp hc
    have hc1 : ∀ c ∈ wh.WebHook.Collectors, ∃ code ch,
        c.transformCode = some code ∧ (List.lookup c.ID wh.collectors).join = some ch := by
      intro c hmem
      obtain ⟨code, ch, h1, h2, _⟩ := hc c hmem
      exact ⟨code, ch, h1, h2⟩
    unfold ServeHTTP
    simp only [hm, ne_eq, not_true_eq_false, if_false, ha, Bool.not_true, hp,
      runTransforms_sent wh payload _ hc1]
    simp only [Bool.false_eq_true, if_false, apply_ite Served.sent, ite_self]
    apply List.flatMap_congr
    intro c hmem
    obtain ⟨code, ch, h1, h2, h3⟩ := hc c hmem
    simp only [h1, h2]
    exact okPrefix_of_no_error ch _ h3

end webhook

/-! ## Properties of header name matching -/

namespace webhook

/-- A decidable property of characters that holds for the 26 upper-case letters
holds for every character in their range. -/
theorem forall_upper (P : Char → Prop) [DecidablePred P]
    (hP : ∀ n : Fin 26, P (Char.ofNat (65 + n.val)))
    (c : Char) (h : 65 ≤ c.toNat ∧ c.toNat ≤ 90) : P c := by
  have hc : c = Char.ofNat (65 + (c.toNat - 65)) := by
    have : 65 + (c.toNat - 65) = c.toNat := by omega
    rw [this, Char.ofNat_toNat]
  rw [hc]
  exact hP ⟨c.toNat - 65, by omega⟩

/-- The rewriting of one character by the canonical form does not depend on its
letter case. -/
theorem canon_step_lower (c : Char) (upper : Bool) :
    (if upper ∧ 97 ≤ c.toNat ∧ c.toNat ≤ 122 then Char.ofNat (c.toNat - 32)
      else if ¬ upper ∧ 65 ≤ c.toNat ∧ c.toNat ≤ 90 then Char.ofNat (c.toNat + 32)
      else c)
    = (if upper ∧ 97 ≤ (asciiLower c).toNat ∧ (asciiLower c).toNat ≤ 122 then
        Char.ofNat ((asciiLower c).toNat - 32)
      else if ¬ upper ∧ 65 ≤ (asciiLower c).toNat ∧ (asciiLower c).toNat ≤ 90 then
        Char.ofNat ((asciiLower c).toNat + 32)
      else asciiLower c) := by
  by_cases h : 65 ≤ c.toNat ∧ c.toNat ≤ 90
  · revert upper
    exact forall_upper
      (fun c => ∀ upper : Bool,
        (if upper ∧ 97 ≤ c.toNat ∧ c.toNat ≤ 122 then Char.ofNat (c.toNat - 32)
          else if ¬ upper ∧ 65 ≤ c.toNat ∧ c.toNat ≤ 90 then Char.ofNat (c.toNat + 32)
          else c)
        = (if upper ∧ 97 ≤ (asciiLower c).toNat ∧ (asciiLower c).toNat ≤ 122 then
            Char.ofNat ((asciiLower c).toNat - 32)
          else if ¬ upper ∧ 65 ≤ (asciiLower c).toNat ∧ (asciiLower c).toNat ≤ 90 then
            Char.ofNat ((asciiLower c).toNat + 32)
          else asciiLower c))
      (by decide) c h
  · have hl : asciiLower c = c := by
      unfold asciiLower
      rw [if_neg h]
    rw [hl]

/-- The canonical rewriting of a key does not depend on its letter case. -/
theorem canonLoop_lower (s : List Char) (upper : Bool) :
    http.canonLoop s upper = http.canonLoop (s.map asciiLower) upper := by
  induction s generalizing upper with
  | nil => rfl
  | cons c cs ih =>
    simp only [List.map_cons, http.canonLoop]
    rw [← canon_step_lower c upper]
    congr 1
    exact ih _

/-- Being a token character does not depend on letter case. -/
theorem valid_lower (c : Char) :
    http.validHeaderFieldByte (asciiLower c) = http.validHeaderFieldByte c := by
  by_cases h : 65 ≤ c.toNat ∧ c.toNat ≤ 90
  · exact forall_upper
      (fun c => http.validHeaderFieldByte (asciiLower c) = http.validHeaderFieldByte c)
      (by decide) c h
  · have hl : asciiLower c = c := by
      unfold asciiLower
      rw [if_neg h]
    rw [hl]

/-- Two names of token characters that differ in letter case only have the same
canonical form. -/
theorem canonical_of_same_lower (a b : String)
    (ha : a.data.all http.validHeaderFieldByte = true)
    (h : a.data.map asciiLower = b.data.map asciiLower) :
    http.CanonicalMIMEHeaderKey a = http.CanonicalMIMEHeaderKey b := by
  have hall : ∀ s : List Char,
      (s.map asciiLower).all http.validHeaderFieldByte = s.all http.validHeaderFieldByte := by
    intro s
    induction s with
    | nil => rfl
    | cons c cs ih => simp only [List.map_cons, List.all_cons, ih, valid_lower]
  have hb : b.data.all http.validHeaderFieldByte = true := by
    rw [← hall, ← h, hall, ha]
  unfold http.CanonicalMIMEHeaderKey
  rw [if_pos ha, if_pos hb, canonLoop_lower a.data, canonLoop_lower b.data, h]

/-- C16 (as stated, refuted): a request header set holds `auth: secret` under
the very name the header is configured with, and the check rejects it, the key
not being in canonical form; another holds two values under `Auth`, the second of
which is the expected one, and is rejected as well. -/
theorem C16_same_name_rejected :
    List.lookup "auth" ([("auth", ["secret"])] : http.Header) = some ["secret"] ∧
    (∀ L : GoLib,
      isAuthHeadersMatching L [("auth", ["secret"])] [⟨"auth", "secret", ""⟩] = false) ∧
    (∀ L : GoLib,
      isAuthHeadersMatching L [("Auth", ["other", "secret"])] [⟨"Auth", "secret", ""⟩]
        = false) :=
  ⟨rfl, fun _ => rfl, fun _ => rfl⟩

/-- C16 (amended): when the request header set holds, under a key in canonical
form that equals the configured name up to letter case, a value list whose first
value is the expected value, and the configured name consists of token
characters, `isAuthHeadersMatching` accepts that header: the comparison made for
it succeeds, and the check with that header alone returns true. -/
theorem C16_name_case_insensitive (L : GoLib) (h : http.Header) (eh : Header)
    (key : String) (vs : List String)
    (hcanon : http.CanonicalMIMEHeaderKey key = key)
    (htoken : eh.Name.data.all http.validHeaderFieldByte = true)
    (hcase : eh.Name.data.map asciiLower = key.data.map asciiLower)
    (hval : List.lookup key h = some (eh.GetValue L :: vs)) :
    h.Get eh.Name = eh.GetValue L ∧ isAuthHeadersMatching L h [eh] = true := by
  have hget : h.Get eh.Name = eh.GetValue L := by
    unfold http.Header.Get
    rw [canonical_of_same_lower eh.Name key htoken hcase, hcanon, hval]
  refine ⟨hget, ?_⟩
  simp [isAuthHeadersMatching, hget]

/-- C16, at a concrete request: the header configured as `AUTHORIZATION` is
accepted from a request that holds it as `Authorization`. -/
theorem C16_name_case_insensitive_witness :
    isAuthHeadersMatching exampleLib [("Authorization", ["secret"])]
      [⟨"AUTHORIZATION", "secret", ""⟩] = true :=
  (C16_name_case_insensitive exampleLib [("Authorization", ["secret"])]
    ⟨"AUTHORIZATION", "secret", ""⟩ "Authorization" [] (by decide) (by decide) (by decide)
    rfl).2

end webhook

/-! ## Properties of the handler construction -/

namespace webhook

/-- The variable `err` after the loop of `webHookHandler` is the outcome of
compiling the transform of the last binding alone. -/
theorem bindCollectors_err (G : Gojq) (inputs : List (String × Option Chan))
    (cs : List Collector) (collectors : List (String × Option Chan)) (err : Option String) :
    (bindCollectors G inputs cs collectors err).2.2 =
      match cs.getLast? with
      | none => err
      | some c =>
        match parseAndCompileJQExp G c.Transform with
        | .ok _ => none
        | .error e => some e := by
  induction cs generalizing collectors err with
  | nil => rfl
  | cons c rest ih =>
    simp only [bindCollectors]
    rw [ih]
    cases rest with
    | nil => rfl
    | cons c1 rest1 =>
      rw [List.getLast?_cons_cons, List.getLast?_eq_getLast _ (List.cons_ne_nil c1 rest1)]

/-- The handler construction fails exactly when the transform of the last
collector binding fails to compile. -/
theorem webHookHandler_error_iff (G : Gojq) (wh : WebHook)
    (inputs : List (String × Option Chan)) :
    (∃ e, webHookHandler G wh inputs = .error e) ↔
      ∃ c e, wh.Collectors.getLast? = some c ∧
        parseAndCompileJQExp G c.Transform = .error e := by
  have herr := bindCollectors_err G inputs wh.Collectors [] none
  unfold webHookHandler
  cases hb : bindCollectors G inputs wh.Collectors [] none with
  | mk collectors r =>
    cases r with
    | mk bindings err =>
      rw [hb] at herr
      simp only at herr
      cases hl : wh.Collectors.getLast? with
      | none =>
        rw [hl] at herr
        subst herr
        simp
      | some c =>
        rw [hl] at herr
        simp only at herr
        cases hp : parseAndCompileJQExp G c.Transform with
        | ok code =>
          rw [hp] at herr
          subst herr
          simp [hp]
        | error e =>
          rw [hp] at herr
          subst herr
          simp [hp]

/-- C18 (the code at the failing input): the transform of the first of two
bindings does not compile and that of the second does; `webHookHandler` returns
a handler and no error, the first binding is left without compiled transform,
and serving a request with that handler panics. -/
theorem C18_first_compile_error_lost :
    (∃ e, parseAndCompileJQExp exampleJq "(" = .error e) ∧
    ∃ h, webHookHandler exampleJq brokenFirstHook
        [("first", some 0), ("second", some 1)] = .ok h ∧
      h.WebHook.Collectors.map (fun c => (c.ID, c.Transform, c.transformCode.isSome))
        = [("first", "(", false), ("second", ".", true)] ∧
      (ServeHTTP exampleLib h ⟨"POST", [], "null"⟩).ending = .panicked :=
  ⟨⟨_, rfl⟩, _, rfl, rfl, rfl⟩

end webhook

/-! ## Properties of the configuration checks -/

/-- Freshness of a concatenation. -/
theorem fresh_append (a b seen : List String) :
    fresh (a ++ b) seen ↔ fresh a seen ∧ fresh b (a.reverse ++ seen) := by
  unfold fresh
  rw [List.nodup_append]
  constructor
  · rintro ⟨⟨ha, hb, hd⟩, hs⟩
    refine ⟨⟨ha, fun k hk => hs k (List.mem_append_left _ hk)⟩, hb, ?_⟩
    intro k hk hmem
    rcases List.mem_append.mp hmem with h | h
    · exact hd (List.mem_reverse.mp h) hk
    · exact hs k (List.mem_append_right _ hk) h
  · rintro ⟨⟨ha, hsa⟩, hb, hsb⟩
    refine ⟨⟨ha, hb, ?_⟩, ?_⟩
    · intro k hka hkb
      exact hsb k hkb (List.mem_append_left _ (List.mem_reverse.mpr hka))
    · intro k hk
      rcases List.mem_append.mp hk with h | h
      · exact hsa k h
      · intro hs
        exact hsb k h (List.mem_append_right _ hs)

/-- Freshness of a list with one more key in front. -/
theorem fresh_cons (k : String) (ks seen : List String) :
    fresh (k :: ks) seen ↔ k ∉ seen ∧ fresh ks (k :: seen) := by
  have h := fresh_append [k] ks seen
  simp only [List.singleton_append, List.reverse_singleton] at h
  rw [h]
  unfold fresh
  simp

/-- Freshness is invariant under permutation of the keys. -/
theorem fresh_perm (a b seen : List String) (h : a.Perm b) :
    fresh a seen ↔ fresh b seen := by
  unfold fresh
  rw [h.nodup_iff]
  constructor
  · intro ⟨hn, hs⟩
    exact ⟨hn, fun k hk => hs k (h.mem_iff.mpr hk)⟩
  · intro ⟨hn, hs⟩
    exact ⟨hn, fun k hk => hs k (h.mem_iff.mp hk)⟩

namespace collector

/-- The inner loop of `validateConfig` fails exactly when the keys of the metrics
are not fresh; when it succeeds it has recorded them. -/
theorem validateMetrics_spec (name : String) (c : Collector) (ms : List Metric)
    (names : List String) :
    ((∃ e, validateMetrics name c ms names = .error e) ∧
      ¬ fresh (ms.map (metricKey c)) names) ∨
    (validateMetrics name c ms names = .ok ((ms.map (metricKey c)).reverse ++ names) ∧
      fresh (ms.map (metricKey c)) names) := by
  induction ms generalizing names with
  | nil =>
    right
    exact ⟨rfl, List.nodup_nil, fun k hk => by cases hk⟩
  | cons m rest ih =>
    simp only [List.map_cons, fresh_cons]
    by_cases hmem : metricKey c m ∈ names
    · left
      refine ⟨⟨"metrics name must be unique duplicate names found collector:" ++ name
        ++ " namespace:" ++ c.Namespace ++ " metric:" ++ m.Name, ?_⟩, fun h => h.1 hmem⟩
      simp only [validateMetrics]
      rw [if_pos (by exact hmem)]
    · have hstep : validateMetrics name c (m :: rest) names
          = validateMetrics name c rest (metricKey c m :: names) := by
        simp only [validateMetrics]
        rw [if_neg (by exact hmem)]
        rfl
      rw [hstep]
      rcases ih (metricKey c m :: names) with ⟨he, hn⟩ | ⟨ho, hf⟩
      · left
        exact ⟨he, fun h => hn h.2⟩
      · right
        refine ⟨?_, hmem, hf⟩
        rw [ho]
        simp

/-- The outer loop of `validateConfig` returns nil exactly when the keys of all
metrics are fresh. -/
theorem validateCollectors_spec (cs : List (String × Collector)) (names : List String) :
    validateCollectors cs names = none ↔ fresh (metricKeys cs) names := by
  induction cs generalizing names with
  | nil =>
    simp [validateCollectors, metricKeys, fresh]
  | cons p rest ih =>
    obtain ⟨name, c⟩ := p
    have hk : metricKeys ((name, c) :: rest)
        = c.Metrics.map (metricKey c) ++ metricKeys rest := by
      simp [metricKeys]
    rw [hk, fresh_append]
    simp only [validateCollectors]
    rcases validateMetrics_spec name c c.Metrics names with ⟨⟨e, he⟩, hn⟩ | ⟨ho, hf⟩
    · rw [he]
      simp only [reduceCtorEq, false_iff]
      exact fun h => hn h.1
    · rw [ho]
      simp only
      rw [ih]
      exact ⟨fun h => ⟨hf, h⟩, fun h => h.2⟩

/-- C19 (as stated, refuted): the namespaces `a_b` and `a` with the metric names
`c` and `b_c` give no two metric definitions with the same namespace and the same
name, and `validateConfig` returns an error. -/
theorem C19_distinct_definitions_rejected :
    (metricDefs underscoreConfig.Collectors).Nodup ∧
    metricDefs underscoreConfig.Collectors = [("a_b", "c"), ("a", "b_c")] ∧
    validateConfig underscoreConfig = some
      ("metrics name must be unique duplicate names found collector:two"
        ++ " namespace:a metric:b_c") := by
  refine ⟨by decide, rfl, rfl⟩

/-- C19 (amended): the collector `validateConfig` returns an error exactly when
two metric definitions, in the same collector or in different ones, have the
same key namespace, underscore, name; it does so in particular when two have the
same namespace and the same name; and whether it returns an error does not
depend on the order in which the collectors are visited. -/
theorem C19_validate_metric_names (config : Config) :
    (validateConfig config ≠ none ↔ ¬ (metricKeys config.Collectors).Nodup) ∧
    (¬ (metricDefs config.Collectors).Nodup → validateConfig config ≠ none) ∧
    (∀ other : Config, config.Collectors.Perm other.Collectors →
      (validateConfig config = none ↔ validateConfig other = none)) := by
  have key : ∀ cfg : Config,
      validateConfig cfg = none ↔ (metricKeys cfg.Collectors).Nodup := by
    intro cfg
    unfold validateConfig
    rw [validateCollectors_spec]
    unfold fresh
    simp
  refine ⟨?_, ?_, ?_⟩
  · rw [ne_eq, key]
  · intro hdefs
    rw [ne_eq, key]
    intro hkeys
    apply hdefs
    have hmap : metricKeys config.Collectors
        = (metricDefs config.Collectors).map (fun d => d.1 ++ "_" ++ d.2) := by
      unfold metricKeys metricDefs
      rw [List.map_flatMap]
      apply List.flatMap_congr
      intro p _
      rw [List.map_map]
      rfl
    rw [hmap] at hkeys
    exact List.Nodup.of_map _ hkeys
  · intro other hperm
    rw [key, key]
    have hp : (metricKeys config.Collectors).Perm (metricKeys other.Collectors) := by
      unfold metricKeys
      exact List.Perm.flatMap_right _ hperm
    exact hp.nodup_iff

end collector

namespace webhook

/-- The loop of the webhook `validateConfig` returns nil exactly when every path
is non-empty and starts with a slash and the paths are fresh. -/
theorem validateFrom_spec (whs : List (String × WebHook)) (paths : List String) :
    validateFrom whs paths = none ↔
      (∀ p ∈ whs, p.2.Path ≠ "" ∧ ∃ rest, p.2.Path.data = '/' :: rest) ∧
      fresh (whs.map (fun p => p.2.Path)) paths := by
  induction whs generalizing paths with
  | nil => simp [validateFrom, fresh]
  | cons p rest ih =>
    obtain ⟨id, wh⟩ := p
    simp only [List.map_cons, fresh_cons, List.mem_cons, forall_eq_or_imp]
    simp only [validateFrom]
    by_cases hempty : wh.Path = ""
    · simp [hempty]
    · by_cases hslash : wh.Path.data.head? = some '/'
      · have hstarts : ∃ r, wh.Path.data = '/' :: r := by
          cases hd : wh.Path.data with
          | nil => rw [hd] at hslash; simp at hslash
          | cons c cs =>
            rw [hd] at hslash
            simp only [List.head?_cons, Option.some.injEq] at hslash
            exact ⟨cs, by rw [hslash]⟩
        by_cases hmem : wh.Path ∈ paths
        · simp [hempty, hslash, hmem]
        · simp only [hempty, hslash, hmem, if_false, ne_eq, not_true_eq_false,
            not_false_eq_true, true_and]
          rw [ih]
          constructor
          · rintro ⟨h1, h2⟩
            exact ⟨⟨hstarts, h1⟩, h2⟩
          · rintro ⟨⟨_, h1⟩, h2⟩
            exact ⟨h1, h2⟩
      · have hno : ¬ ∃ r, wh.Path.data = '/' :: r := by
          rintro ⟨r, hr⟩
          rw [hr] at hslash
          exact hslash rfl
        simp [hempty, hslash, hno]

/-- C20: the webhook `validateConfig` returns nil exactly when every webhook
path is non-empty, starts with a slash and differs from the path of every other
webhook; whether it returns nil does not depend on the order in which the
webhooks are visited. -/
theorem C20_validate_paths (config : Config) :
    (validateConfig config = none ↔
      (∀ p ∈ config.WebHooks, p.2.Path ≠ "" ∧ ∃ rest, p.2.Path.data = '/' :: rest) ∧
      (config.WebHooks.map (fun p => p.2.Path)).Nodup) ∧
    (∀ other : Config, config.WebHooks.Perm other.WebHooks →
      (validateConfig config = none ↔ validateConfig other = none)) := by
  have key : ∀ cfg : Config, validateConfig cfg = none ↔
      (∀ p ∈ cfg.WebHooks, p.2.Path ≠ "" ∧ ∃ rest, p.2.Path.data = '/' :: rest) ∧
      (cfg.WebHooks.map (fun p => p.2.Path)).Nodup := by
    intro cfg
    unfold validateConfig
    rw [validateFrom_spec]
    unfold fresh
    simp
  refine ⟨key config, ?_⟩
  intro other hperm
  rw [key, key]
  have hp : (config.WebHooks.map (fun p => p.2.Path)).Perm
      (other.WebHooks.map (fun p => p.2.Path)) := hperm.map _
  rw [hp.nodup_iff]
  constructor
  · rintro ⟨h1, h2⟩
    exact ⟨fun p hpm => h1 p (hperm.mem_iff.mpr hpm), h2⟩
  · rintro ⟨h1, h2⟩
    exact ⟨fun p hpm => h1 p (hperm.mem_iff.mp hpm), h2⟩

end webhook

/-! ## Properties of the metric defaults and of label extraction -/

namespace collector

/-- The fields of `setDefaults(m)`. -/
theorem setDefaults_eq (m : Metric) :
    setDefaults m =
      { m with
        Help := if m.Help = "" then "json_exporter metric:" ++ m.Name else m.Help
        Type_ := if m.Type_ = "" then "counter" else m.Type_
        Value := if m.Value = "" then "1" else m.Value } := by
  unfold setDefaults
  by_cases h1 : m.Help = "" <;> by_cases h2 : m.Type_ = "" <;> by_cases h3 : m.Value = "" <;>
    simp [h1, h2, h3, CounterMetric]

/-- C21: `setDefaults(m)` is `m` with an empty `Help` replaced by
`json_exporter metric:` followed by the metric name, an empty `Type` by counter
and an empty `Value` by `1`; non-empty `Help`, `Type` and `Value` are kept, and
`Name`, `Path`, `Filter`, `Operation` and `Labels` are unchanged. -/
theorem C21_setDefaults (m : Metric) :
    setDefaults m =
      { m with
        Help := if m.Help = "" then "json_exporter metric:" ++ m.Name else m.Help
        Type_ := if m.Type_ = "" then "counter" else m.Type_
        Value := if m.Value = "" then "1" else m.Value } ∧
    (setDefaults m).Name = m.Name ∧ (setDefaults m).Path = m.Path ∧
    (setDefaults m).Filter = m.Filter ∧ (setDefaults m).Operation = m.Operation ∧
    (setDefaults m).Labels = m.Labels ∧
    setDefaults ⟨"value_count", "", "", "", "", "", [], ""⟩
      = ⟨"value_count", "json_exporter metric:value_count", "", "", "", "1", [], "counter"⟩ := by
  refine ⟨setDefaults_eq m, ?_, ?_, ?_, ?_, ?_, by decide⟩ <;> rw [setDefaults_eq m]

/-- Assigning a label that the map does not hold yet appends it. -/
theorem Labels.set_new (acc : Labels) (k v : String) (h : k ∉ acc.map Prod.fst) :
    Labels.set acc k v = acc ++ [(k, v)] := by
  induction acc with
  | nil => rfl
  | cons p rest ih =>
    obtain ⟨k1, v1⟩ := p
    simp only [List.map_cons, List.mem_cons, not_or] at h
    simp only [Labels.set]
    rw [if_neg (fun hk => h.1 hk.symm), ih h.2]
    rfl

/-- The first value `extractFirstValue` returns for a sequence that does not
start with an error. -/
theorem extractFirstValue_ok (code : Code) (input : Value)
    (h : ∀ e rest, code input ≠ .error e :: rest) :
    extractFirstValue code input = .ok (firstOrNil (code input)) := by
  unfold extractFirstValue
  cases hc : code input with
  | nil => rfl
  | cons x rest =>
    cases x with
    | error e => exact absurd hc (h e rest)
    | ok v => rfl

/-- The label loop, when no label fails and the names are new and distinct. -/
theorem extractLabelsFrom_ok (L : GoLib) (input : Value) (labels : List jsonLabel)
    (acc : Labels)
    (hok : ∀ l ∈ labels, ∀ e rest, l.value input ≠ .error e :: rest)
    (hnodup : (labels.map (fun l => l.name)).Nodup)
    (hnew : ∀ l ∈ labels, l.name ∉ acc.map Prod.fst) :
    extractLabelsFrom L input labels acc =
      .ok (acc ++ labels.map (fun l => (l.name, Sprint L (firstOrNil (l.value input))))) := by
  induction labels generalizing acc with
  | nil => simp [extractLabelsFrom]
  | cons l rest ih =>
    simp only [extractLabelsFrom]
    rw [extractFirstValue_ok l.value input (hok l (List.mem_cons_self _ _))]
    simp only
    rw [Labels.set_new acc _ _ (hnew l (List.mem_cons_self _ _))]
    simp only [List.map_cons, List.nodup_cons] at hnodup
    rw [ih _ (fun l1 h1 => hok l1 (List.mem_cons_of_mem _ h1)) hnodup.2]
    · simp
    · intro l1 h1
      simp only [List.map_append, List.map_cons, List.map_nil, List.mem_append,
        List.mem_singleton, not_or]
      refine ⟨hnew l1 (List.mem_cons_of_mem _ h1), ?_⟩
      intro heq
      exact hnodup.1 (List.mem_map.mpr ⟨l1, h1, heq⟩)

/-- The label loop, when a label fails after labels that do not. -/
theorem extractLabelsFrom_error (L : GoLib) (input : Value) (pre post : List jsonLabel)
    (l : jsonLabel) (e : String) (rest : List (Except String Value)) (acc : Labels)
    (hok : ∀ l1 ∈ pre, ∀ e1 r1, l1.value input ≠ .error e1 :: r1)
    (hl : l.value input = .error e :: rest) :
    extractLabelsFrom L input (pre ++ l :: post) acc =
      .error ("unable to get label value label:" ++ l.name ++ " err:"
        ++ ("unable to get value err:" ++ e)) := by
  induction pre generalizing acc with
  | nil =>
    simp only [List.nil_append, extractLabelsFrom, extractFirstValue, hl]
  | cons l1 pre1 ih =>
    simp only [List.cons_append, extractLabelsFrom]
    rw [extractFirstValue_ok l1.value input (hok l1 (List.mem_cons_self _ _))]
    exact ih _ (fun l2 h2 => hok l2 (List.mem_cons_of_mem _ h2))

/-- C22: for a metric whose label names are distinct, `extractLabels` returns,
when no label expression starts with an evaluation error, the label set that
holds for each label definition, in order, the string form of the first value its
expression yields for the record (of nil when it yields nothing); and when some
label expression starts with an evaluation error it returns no label set and an
error naming the first such label; the metric `twoLabelMetric` shows both
outcomes. -/
theorem C22_extractLabels (L : GoLib) (jm : jsonMetric) (input : Value) :
    ((∀ l ∈ jm.labels, ∀ e rest, l.value input ≠ .error e :: rest) →
      (jm.labels.map (fun l => l.name)).Nodup →
      extractLabels L jm input =
        .ok (jm.labels.map (fun l => (l.name, Sprint L (firstOrNil (l.value input)))))) ∧
    (∀ (pre post : List jsonLabel) (l : jsonLabel) (e : String)
        (rest : List (Except String Value)),
      jm.labels = pre ++ l :: post →
      (∀ l1 ∈ pre, ∀ e1 r1, l1.value input ≠ .error e1 :: r1) →
      l.value input = .error e :: rest →
      extractLabels L jm input =
        .error ("unable to get label value label:" ++ l.name ++ " err:"
          ++ ("unable to get value err:" ++ e))) ∧
    extractLabels exampleLib twoLabelMetric (.int 1) = .ok [("id", "1"), ("kind", "<nil>")] ∧
    extractLabels exampleLib twoLabelMetric (.int 0)
      = .error "unable to get label value label:kind err:unable to get value err:boom" := by
  refine ⟨?_, ?_, by decide, by decide⟩
  · intro hok hnodup
    unfold extractLabels
    rw [extractLabelsFrom_ok L input jm.labels [] hok hnodup (fun _ _ => by simp)]
    simp
  · intro pre post l e rest hsplit hok hl
    unfold extractLabels
    rw [hsplit, extractLabelsFrom_error L input pre post l e rest [] hok hl]

end collector

/-! ## Properties of the empty expression text -/

namespace collector

/-- The compile helper of the collector package gives the empty text the result
of the identity `.`. -/
theorem parseAndCompileJQExp_orIdentity (G : webhook.Gojq) (exp : String) :
    parseAndCompileJQExp G (orIdentity exp) = parseAndCompileJQExp G exp := by
  unfold parseAndCompileJQExp orIdentity
  by_cases h : exp = ""
  · subst h
    rfl
  · simp [h]

/-- The compile helpers of the two packages agree on a text that is not
empty. -/
theorem parseAndCompileJQExp_webhook (G : webhook.Gojq) (exp : String) (h : exp ≠ "") :
    parseAndCompileJQExp G exp = webhook.parseAndCompileJQExp G exp := by
  unfold parseAndCompileJQExp webhook.parseAndCompileJQExp
  simp [h]

/-- The label loop of `newJsonMetric` gives an empty label expression the result
of `.`. -/
theorem compileLabels_orIdentity (G : webhook.Gojq) (metricName : String) (ls : List Label) :
    compileLabels G metricName (ls.map (fun l => { l with Value := orIdentity l.Value })) =
      compileLabels G metricName ls := by
  induction ls with
  | nil => rfl
  | cons l rest ih =>
    simp only [List.map_cons, compileLabels]
    rw [parseAndCompileJQExp_orIdentity, ih]

/-- Construction of a metric gives every empty path, filter and label
expression the result of `.`. -/
theorem newJsonMetric_withIdentity (G : webhook.Gojq) (m : Metric)
    (defaultLabels : List jsonLabel) :
    newJsonMetric G (withIdentity m) defaultLabels = newJsonMetric G m defaultLabels := by
  unfold newJsonMetric
  simp only [setDefaults_eq, withIdentity, parseAndCompileJQExp_orIdentity,
    compileLabels_orIdentity]

end collector

namespace webhook

/-- The bindings a handler is constructed with: those of the definition, each
with the outcome of compiling its transform. -/
theorem bindCollectors_bindings (G : Gojq) (inputs : List (String × Option Chan))
    (cs : List Collector) (collectors : List (String × Option Chan)) (err : Option String) :
    (bindCollectors G inputs cs collectors err).2.1 =
      cs.map (fun c =>
        { c with transformCode := match parseAndCompileJQExp G c.Transform with
                                  | .ok code => some code
                                  | .error _ => none }) := by
  induction cs generalizing collectors err with
  | nil => rfl
  | cons c rest ih =>
    simp only [bindCollectors, List.map_cons]
    rw [ih]

/-- The parts of a constructed handler. -/
theorem webHookHandler_ok (G : Gojq) (wh : WebHook)
    (inputs : List (String × Option Chan)) (h : WebHookHandler)
    (hh : webHookHandler G wh inputs = .ok h) :
    h.collectors = (bindCollectors G inputs wh.Collectors [] none).1 ∧
    h.WebHook.Collectors = (bindCollectors G inputs wh.Collectors [] none).2.1 := by
  unfold webHookHandler at hh
  split at hh
  · simp at hh
  · rename_i collectors bindings hb
    simp only [Except.ok.injEq] at hh
    subst hh
    rw [hb]
    exact ⟨rfl, rfl⟩

/-- The handler construction returns the compile error of the transform of the
last binding. -/
theorem webHookHandler_last_error (G : Gojq) (wh : WebHook)
    (inputs : List (String × Option Chan)) (c : Collector) (e : String)
    (hlast : wh.Collectors.getLast? = some c)
    (hc : parseAndCompileJQExp G c.Transform = .error e) :
    webHookHandler G wh inputs = .error ("unable to parse transform code err:" ++ e) := by
  have herr := bindCollectors_err G inputs wh.Collectors [] none
  rw [hlast] at herr
  simp only [hc] at herr
  unfold webHookHandler
  cases hb : bindCollectors G inputs wh.Collectors [] none with
  | mk collectors r =>
    cases r with
    | mk bindings err =>
      rw [hb] at herr
      simp only at herr
      subst herr
      rfl

/-- C23 (the code at the failing input): the compile helper of the collector
package gives the empty expression text the result of the identity `.`, whatever
the library, and so does `newJsonMetric` for empty path, filter and label
expressions.  The compile helper of the webhook package agrees with it on every
other text and hands the empty text to the library as it is.  With a library
that does not compile the empty text, the
transform of a binding with no transform is not compiled: when the binding is the
last one `webHookHandler` returns an error and no handler, and in a handler that
is constructed the binding has no transform code, so that it forwards nothing.
On the library `exampleJq` the collector helper compiles the empty text to the
identity and the webhook helper returns an error for it; no handler is
constructed for the webhook whose one binding has no transform, while with the
transform `.` the handler forwards the decoded payload unchanged. -/
theorem C23_empty_transform_not_defaulted :
    (∀ G : Gojq,
      collector.parseAndCompileJQExp G "" = collector.parseAndCompileJQExp G ".") ∧
    (∀ (G : Gojq) (m : collector.Metric) (defaultLabels : List collector.jsonLabel),
      collector.newJsonMetric G (withIdentity m) defaultLabels
        = collector.newJsonMetric G m defaultLabels) ∧
    (∀ (G : Gojq) (exp : String), exp ≠ "" →
      collector.parseAndCompileJQExp G exp = parseAndCompileJQExp G exp) ∧
    (∀ (G : Gojq) (e : String), parseAndCompileJQExp G "" = .error e →
      (∀ (wh : WebHook) (inputs : List (String × Option Chan)) (c : Collector),
        wh.Collectors.getLast? = some c → c.Transform = "" →
        webHookHandler G wh inputs = .error ("unable to parse transform code err:" ++ e)) ∧
      (∀ (wh : WebHook) (inputs : List (String × Option Chan)) (h : WebHookHandler),
        webHookHandler G wh inputs = .ok h →
        ∀ c ∈ h.WebHook.Collectors, c.Transform = "" → c.transformCode = none)) ∧
    (∃ code, collector.parseAndCompileJQExp exampleJq "" = .ok code ∧
      ∀ v, code v = [.ok v]) ∧
    parseAndCompileJQExp exampleJq "" = .error "jq query parse error unexpected token in " ∧
    webHookHandler exampleJq (exampleHook "" ["example"]) [("example", some 0)]
      = .error "unable to parse transform code err:jq query parse error unexpected token in " ∧
    (∃ h, webHookHandler exampleJq (exampleHook "." ["example"]) [("example", some 0)] = .ok h ∧
      (ServeHTTP exampleLib h ⟨"POST", [], "null"⟩).sent = [(0, .null)]) := by
  refine ⟨fun G => collector.parseAndCompileJQExp_orIdentity G "",
    fun G => collector.newJsonMetric_withIdentity G,
    fun G exp hne => collector.parseAndCompileJQExp_webhook G exp hne, ?_,
    ⟨_, rfl, fun _ => rfl⟩, rfl, rfl, ⟨_, rfl, rfl⟩⟩
  intro G e he
  constructor
  · intro wh inputs c hlast hempty
    exact webHookHandler_last_error G wh inputs c e hlast (by rw [hempty]; exact he)
  · intro wh inputs h hh c hc hempty
    rw [(webHookHandler_ok G wh inputs h hh).2, bindCollectors_bindings] at hc
    obtain ⟨c0, _, rfl⟩ := List.mem_map.mp hc
    simp only at hempty
    simp only [hempty, he]

end webhook

/-! ## Properties of a document that fails part-way -/

namespace collector

/-- The loop of `process` for one metric over records that `collect` accepts,
followed by a record on which `collect` returns an error: the flag is cleared,
the mutations are those of the accepted records, and what follows the failing
record is not looked at. -/
theorem processRecords_first_failure (L : GoLib) (m : jsonMetric) (pre : List Value)
    (v : Value) (post : List (Except String Value))
    (hpre : ∀ x ∈ pre, (collect L m x).1 = none)
    (hfail : (collect L m v).1 ≠ none) :
    processRecords L m (pre.map .ok ++ .ok v :: post) =
      (false, pre.flatMap (fun x => (collect L m x).2)) := by
  induction pre with
  | nil =>
    simp only [List.map_nil, List.nil_append, processRecords, List.flatMap_nil]
    rcases collect_cases L m v with h | h | h
    · exact absurd (by rw [h.2.1]) hfail
    · obtain ⟨e, he⟩ := h.2.1
      rw [he]
    · obtain ⟨ls, x, he, _⟩ := h.2
      exact absurd (by rw [he]) hfail
  | cons x rest ih =>
    have hx := hpre x (List.mem_cons_self _ _)
    simp only [List.map_cons, List.cons_append, processRecords, List.flatMap_cons]
    cases hc : collect L m x with
    | mk err ups =>
      rw [hc] at hx
      simp only at hx
      subst hx
      have hrest := ih (fun y hy => hpre y (List.mem_cons_of_mem _ hy))
      simp only [List.append_eq, hrest]

/-- C25: when the path sequence of a metric yields records that `collect`
accepts and then a record on which `collect` returns an error, the loop of
`process` for that metric keeps the registry mutations of the accepted records,
looks at nothing that follows the failing record, and `process` returns false,
its mutations being those of the earlier metrics, those of the accepted records
and those of the later metrics. -/
theorem C25_process_not_atomic (L : GoLib) (jc : JSONCollector) (input : Value)
    (earlier later : List jsonMetric) (m : jsonMetric) (pre : List Value) (v : Value)
    (post : List (Except String Value))
    (hm : jc.metrics = earlier ++ m :: later)
    (hpath : m.path input = pre.map .ok ++ .ok v :: post)
    (hpre : ∀ x ∈ pre, (collect L m x).1 = none)
    (hfail : (collect L m v).1 ≠ none) :
    processRecords L m (m.path input) = (false, pre.flatMap (fun x => (collect L m x).2)) ∧
    (∀ post1, processRecords L m (pre.map .ok ++ .ok v :: post1)
      = processRecords L m (m.path input)) ∧
    (process L jc input).1 = false ∧
    (process L jc input).2 =
      (process L ⟨jc.id, earlier⟩ input).2 ++ pre.flatMap (fun x => (collect L m x).2)
        ++ (process L ⟨jc.id, later⟩ input).2 := by
  have hrec := processRecords_first_failure L m pre v post hpre hfail
  rw [← hpath] at hrec
  refine ⟨hrec, ?_, ?_, ?_⟩
  · intro post1
    rw [hrec]
    exact processRecords_first_failure L m pre v post1 hpre hfail
  · unfold process
    rw [process_from, hm]
    simp [hrec]
  · unfold process
    rw [process_from, process_from, process_from, hm]
    simp [hrec, List.flatMap_append]

/-- C25, on a counter whose second record has no numeric value: the first record
is counted, the third is not, and the document fails. -/
theorem C25_process_not_atomic_witness :
    process exampleLib ⟨"test", [secondFailsMetric]⟩ .null
      = (false, [⟨"value", .counterAdd, [], .finite 2⟩]) := by
  have h := C25_process_not_atomic exampleLib ⟨"test", [secondFailsMetric]⟩ .null [] []
    secondFailsMetric [.float (.finite 2)] (.string "x") [.ok (.float (.finite 3))]
    rfl rfl
    (by
      intro x hx
      simp only [List.mem_singleton] at hx
      subst hx
      rfl)
    (by decide)
  exact Prod.ext h.2.2.1 (h.2.2.2.trans rfl)

end collector

/-! ## Properties of a binding to an unknown collector -/

namespace webhook

/-- The map a handler is constructed with: one assignment per binding, newest
first, each of what the collector-input map holds for the id of the binding. -/
theorem bindCollectors_map (G : Gojq) (inputs : List (String × Option Chan))
    (cs : List Collector) (collectors : List (String × Option Chan)) (err : Option String) :
    (bindCollectors G inputs cs collectors err).1 =
      cs.reverse.map (fun c => (c.ID, (List.lookup c.ID inputs).join)) ++ collectors := by
  induction cs generalizing collectors err with
  | nil => rfl
  | cons c rest ih =>
    simp only [bindCollectors]
    rw [ih]
    simp

/-- Reading, under the id of one of its bindings, a map that was assigned per
binding. -/
theorem lookup_assigned (g : String → Option Chan) (cs : List Collector)
    (tail : List (String × Option Chan)) (c : Collector) (hc : c ∈ cs) :
    List.lookup c.ID (cs.map (fun b => (b.ID, g b.ID)) ++ tail) = some (g c.ID) := by
  induction cs with
  | nil => simp at hc
  | cons b rest ih =>
    simp only [List.map_cons, List.cons_append, List.lookup_cons]
    by_cases hb : c.ID = b.ID
    · simp [hb]
    · have hne : (c.ID == b.ID) = false := by simpa using hb
      rw [hne]
      rcases List.mem_cons.mp hc with h | h
      · exact absurd (by rw [h]) hb
      · exact ih h

/-- C26: for a webhook definition all of whose transforms compile,
`webHookHandler` returns a handler and no error, and under the id of a binding
that is not a key of the collector-input map the handler holds a nil queue. -/
theorem C26_unknown_collector_accepted (G : Gojq) (wh : WebHook)
    (inputs : List (String × Option Chan)) (c : Collector)
    (hcompile : ∀ b ∈ wh.Collectors, ∃ code, parseAndCompileJQExp G b.Transform = .ok code)
    (hc : c ∈ wh.Collectors)
    (hmissing : c.ID ∉ inputs.map Prod.fst) :
    ∃ h, webHookHandler G wh inputs = .ok h ∧ List.lookup c.ID h.collectors = some none := by
  have hlook : List.lookup c.ID inputs = none := by
    rw [List.lookup_eq_none_iff]
    intro p hp
    rw [bne_iff_ne]
    intro hk
    exact hmissing (List.mem_map.mpr ⟨p, hp, hk.symm⟩)
  have herr := bindCollectors_err G inputs wh.Collectors [] none
  have hmap := bindCollectors_map G inputs wh.Collectors [] none
  have hnone : (bindCollectors G inputs wh.Collectors [] none).2.2 = none := by
    rw [herr]
    cases hl : wh.Collectors.getLast? with
    | none => rfl
    | some b =>
      obtain ⟨code, hcode⟩ := hcompile b (List.mem_of_mem_getLast? (Option.mem_def.mpr hl))
      simp only [hcode]
  unfold webHookHandler
  cases hb : bindCollectors G inputs wh.Collectors [] none with
  | mk collectors r =>
    cases r with
    | mk bindings err =>
      rw [hb] at hnone hmap
      simp only at hnone hmap
      subst hnone
      refine ⟨_, rfl, ?_⟩
      simp only
      rw [hmap, lookup_assigned (fun id => (List.lookup id inputs).join) wh.Collectors.reverse []
        c (List.mem_reverse.mpr hc), hlook]
      rfl

/-- C26, on a webhook bound to the collectors `example` and `ghost` with a
collector-input map that holds `example` only: the handler is constructed and
holds a nil queue for `ghost`. -/
theorem C26_unknown_collector_accepted_witness :
    ∃ h, webHookHandler exampleJq (exampleHook "." ["example", "ghost"]) [("example", some 0)]
        = .ok h ∧
      List.lookup "ghost" h.collectors = some none :=
  C26_unknown_collector_accepted exampleJq (exampleHook "." ["example", "ghost"])
    [("example", some 0)] ⟨"ghost", ".", none⟩
    (by
      intro b hb
      simp only [exampleHook, List.map_cons, List.map_nil, List.mem_cons, List.mem_singleton,
        List.not_mem_nil, or_false] at hb
      rcases hb with h | h <;> subst h <;> exact ⟨_, rfl⟩)
    (by simp [exampleHook])
    (by decide)

end webhook

/-! ## Properties of the loop of Start -/

namespace collector

/-- The invariant holds when `Start` is called. -/
theorem startInvariant_initial : startInvariant Start.initial := by
  refine ⟨rfl, ?_, ?_, ?_⟩
  · exact List.Perm.refl _
  · intro h
    exact absurd h (by simp [Start.initial, leftLoop])
  · intro _
    rfl

/-- Every step of `Start` keeps the invariant. -/
theorem startInvariant_step (s s1 : StartState) (e : StartEvent)
    (hinv : startInvariant s) (hstep : Start.step s e = some s1) : startInvariant s1 := by
  obtain ⟨hwg, hperm, hdone, hret⟩ := hinv
  cases e with
  | cancel =>
    simp only [Start.step, Option.some.injEq] at hstep
    subst hstep
    exact ⟨hwg, hperm, fun _ => rfl, hret⟩
  | offer input =>
    simp only [Start.step, Option.some.injEq] at hstep
    subst hstep
    exact ⟨hwg, hperm, hdone, hret⟩
  | selectDone =>
    simp only [Start.step] at hstep
    split at hstep
    · rename_i hc
      simp only [Option.some.injEq] at hstep
      subst hstep
      rw [hc.1] at hwg hperm
      exact ⟨hwg, hperm, fun _ => hc.2, fun h => absurd h (by simp)⟩
    · simp at hstep
  | selectInput input =>
    simp only [Start.step] at hstep
    split at hstep
    · rename_i hc
      simp only [Option.some.injEq] at hstep
      subst hstep
      rw [hc.1] at hwg hperm
      refine ⟨hwg, ?_, ?_, fun h => absurd h (by simp)⟩
      · simp only [inHand, List.nil_append, List.singleton_append, List.cons_append] at hperm ⊢
        exact List.Perm.cons _ hperm
      · intro h
        exact absurd h (by simp [leftLoop])
    · simp at hstep
  | wgAdd =>
    simp only [Start.step] at hstep
    split at hstep
    · rename_i input hpos
      simp only [Option.some.injEq] at hstep
      subst hstep
      rw [hpos] at hwg hperm
      refine ⟨?_, hperm, ?_, fun h => absurd h (by simp)⟩
      · simp only at hwg ⊢
        omega
      · intro h
        exact absurd h (by simp [leftLoop])
    · simp at hstep
  | spawn =>
    simp only [Start.step] at hstep
    split at hstep
    · rename_i input hpos
      simp only [Option.some.injEq] at hstep
      subst hstep
      rw [hpos] at hwg hperm
      refine ⟨?_, ?_, ?_, fun h => absurd h (by simp)⟩
      · simp only [List.length_cons, Nat.cast_add, Nat.cast_one] at hwg ⊢
        omega
      · simpa [inHand] using hperm
      · intro h
        exact absurd h (by simp [leftLoop])
    · simp at hstep
  | jobDone input =>
    simp only [Start.step] at hstep
    split at hstep
    · rename_i hmem
      simp only [Option.some.injEq] at hstep
      subst hstep
      refine ⟨?_, ?_, hdone, ?_⟩
      · have hlen := List.length_erase_of_mem hmem
        have hpos : 0 < s.running.length := List.length_pos_of_mem hmem
        simp only at hwg ⊢
        rw [hlen]
        cases hp : s.pos <;> rw [hp] at hwg <;> simp only at hwg ⊢ <;> omega
      · have h1 : s.running.Perm (input :: s.running.erase input) := List.perm_cons_erase hmem
        have h2 : (inHand s.pos ++ s.running ++ s.finished).Perm
            (inHand s.pos ++ (input :: s.running.erase input) ++ s.finished) :=
          (h1.append_left _).append_right _
        have h3 : (inHand s.pos ++ (input :: s.running.erase input) ++ s.finished).Perm
            (inHand s.pos ++ s.running.erase input ++ input :: s.finished) := by
          simp only [List.append_assoc, List.cons_append]
          exact List.Perm.append_left _ List.perm_middle.symm
        exact hperm.trans (h2.trans h3)
      · intro h
        rw [hret h] at hmem
        exact absurd hmem (List.not_mem_nil _)
    · simp at hstep
  | waitReturn =>
    simp only [Start.step] at hstep
    split at hstep
    · rename_i hc
      simp only [Option.some.injEq] at hstep
      subst hstep
      have hd := hdone (by rw [hc.1]; rfl)
      rw [hc.1] at hwg hperm
      refine ⟨hwg, hperm, fun _ => hd, fun _ => ?_⟩
      simp only at hwg ⊢
      have hz : (s.running.length : Int) = 0 := by
        have h0 := hc.2
        omega
      exact List.length_eq_zero.mp (by exact_mod_cast hz)
    · simp at hstep

/-- Every state of an execution of `Start` satisfies the invariant. -/
theorem startInvariant_run (es : List StartEvent) (s s1 : StartState)
    (hinv : startInvariant s) (hrun : Start.run s es = some s1) : startInvariant s1 := by
  induction es generalizing s with
  | nil =>
    simp only [Start.run, Option.some.injEq] at hrun
    subst hrun
    exact hinv
  | cons e rest ih =>
    simp only [Start.run] at hrun
    cases hs : Start.step s e with
    | none => simp [hs] at hrun
    | some s2 =>
      rw [hs] at hrun
      exact ih s2 (startInvariant_step s s2 e hinv hs) hrun

/-- Once `Start` has left the loop, a step receives no document and does not
go back to the loop. -/
theorem leftLoop_step (s s1 : StartState) (e : StartEvent) (hleft : leftLoop s.pos = true)
    (hstep : Start.step s e = some s1) :
    s1.accepted = s.accepted ∧ leftLoop s1.pos = true := by
  cases e with
  | cancel =>
    simp only [Start.step, Option.some.injEq] at hstep
    subst hstep
    exact ⟨rfl, hleft⟩
  | offer input =>
    simp only [Start.step, Option.some.injEq] at hstep
    subst hstep
    exact ⟨rfl, hleft⟩
  | selectDone =>
    simp only [Start.step] at hstep
    split at hstep
    · rename_i hc
      rw [hc.1] at hleft
      exact absurd hleft (by simp [leftLoop])
    · simp at hstep
  | selectInput input =>
    simp only [Start.step] at hstep
    split at hstep
    · rename_i hc
      rw [hc.1] at hleft
      exact absurd hleft (by simp [leftLoop])
    · simp at hstep
  | wgAdd =>
    simp only [Start.step] at hstep
    split at hstep
    · rename_i input hpos
      rw [hpos] at hleft
      exact absurd hleft (by simp [leftLoop])
    · simp at hstep
  | spawn =>
    simp only [Start.step] at hstep
    split at hstep
    · rename_i input hpos
      rw [hpos] at hleft
      exact absurd hleft (by simp [leftLoop])
    · simp at hstep
  | jobDone input =>
    simp only [Start.step] at hstep
    split at hstep
    · simp only [Option.some.injEq] at hstep
      subst hstep
      exact ⟨rfl, hleft⟩
    · simp at hstep
  | waitReturn =>
    simp only [Start.step] at hstep
    split at hstep
    · simp only [Option.some.injEq] at hstep
      subst hstep
      exact ⟨rfl, rfl⟩
    · simp at hstep

/-- Once `Start` has left the loop, an execution receives no document. -/
theorem leftLoop_run (es : List StartEvent) (s s1 : StartState)
    (hleft : leftLoop s.pos = true) (hrun : Start.run s es = some s1) :
    s1.accepted = s.accepted ∧ leftLoop s1.pos = true := by
  induction es generalizing s with
  | nil =>
    simp only [Start.run, Option.some.injEq] at hrun
    subst hrun
    exact ⟨rfl, hleft⟩
  | cons e rest ih =>
    simp only [Start.run] at hrun
    cases hs : Start.step s e with
    | none => simp [hs] at hrun
    | some s2 =>
      rw [hs] at hrun
      have h2 := leftLoop_step s s2 e hleft hs
      have h3 := ih s2 h2.2 hrun
      exact ⟨h3.1.trans h2.1, h3.2⟩

/-- C24 (as stated, refuted): with a sender ready on the input queue when the
parent context is cancelled, the `select` of `Start` can still take the input
case: the document is received after the cancellation. -/
theorem C24_document_accepted_after_cancel :
    ∃ s1 s2, Start.run Start.initial [.offer (.int 1), .cancel] = some s1 ∧
      s1.done = true ∧ s1.accepted = [] ∧
      Start.step s1 (.selectInput (.int 1)) = some s2 ∧ s2.accepted = [.int 1] :=
  ⟨_, _, rfl, rfl, rfl, rfl, rfl⟩

/-- C24 (amended): in every execution of `Start`, once its `select` has taken
the case of the cancelled context no further document is received from the input
queue, and `Start` has returned only with the context cancelled, with no spawned
job that has not finished and with a finished job for every document it
received; the counter of the wait group never goes below zero. -/
theorem C24_start_stops_after_done (es : List StartEvent) (s : StartState)
    (hrun : Start.run Start.initial es = some s) :
    (leftLoop s.pos = true →
      s.done = true ∧
      ∀ (es1 : List StartEvent) (s1 : StartState), Start.run s es1 = some s1 →
        s1.accepted = s.accepted ∧ leftLoop s1.pos = true) ∧
    (s.pos = .returned → s.running = [] ∧ s.finished.Perm s.accepted) ∧
    0 ≤ s.wg := by
  obtain ⟨hwg, hperm, hdone, hret⟩ :=
    startInvariant_run es Start.initial s startInvariant_initial hrun
  refine ⟨fun hleft => ⟨hdone hleft, fun es1 s1 h1 => leftLoop_run es1 s s1 hleft h1⟩, ?_, ?_⟩
  · intro hpos
    refine ⟨hret hpos, ?_⟩
    rw [hpos, hret hpos] at hperm
    simpa [inHand] using hperm.symm
  · cases hp : s.pos <;> rw [hp] at hwg <;> simp only at hwg <;> omega

/-- C24 (amended), on the execution in which one document is received and its
job spawned before the cancellation, and the job finishes while `Start` waits:
`Start` returns with the job finished, and receives nothing afterwards. -/
theorem C24_start_stops_after_done_witness :
    Start.run Start.initial
        [.offer (.int 1), .selectInput (.int 1), .wgAdd, .spawn, .cancel, .selectDone,
          .jobDone (.int 1), .waitReturn]
      = some ⟨true, [], .returned, 0, [], [.int 1], [.int 1]⟩ ∧
    (∀ (es1 : List StartEvent) (s1 : StartState),
      Start.run ⟨true, [], .returned, 0, [], [.int 1], [.int 1]⟩ es1 = some s1 →
        s1.accepted = [.int 1] ∧ leftLoop s1.pos = true) :=
  ⟨rfl,
    ((C24_start_stops_after_done
      [.offer (.int 1), .selectInput (.int 1), .wgAdd, .spawn, .cancel, .selectDone,
        .jobDone (.int 1), .waitReturn]
      ⟨true, [], .returned, 0, [], [.int 1], [.int 1]⟩ rfl).1 rfl).2⟩

end collector

end JsonExporter
